import Mathlib

/-!
# Reading-time estimation and tag indexing of the tech blog

A verification development for the Eleventy configuration `.eleventy.js` (its filters and
collections), the reference implementation `calculateReadingTime` of
`tests/content/test_reading_time.js` and the tag and content checks of `validateArticleSchema`
of `tests/content/test_article_schema.js`.

## Modelling conventions

* A JavaScript string is a finite sequence of UTF-16 code units.  A code unit is modelled as a
  natural number (real strings only hold values below 65536; no definition depends on that bound).
* A regular expression is modelled by its *anchored matcher*: a function that, given the rest of
  the subject string from some position on, returns the length of the match that starts exactly
  there (`none` when the expression does not match at that position).  None of the expressions
  used by the program looks behind, so the rest of the subject determines the match.
* `String.prototype.match` and `String.prototype.replace` with a global (`/g`) expression scan
  the subject from left to right; after a match the scan resumes right behind it, after a
  failure it resumes one code unit further (`matchAll`, `removeAll`, `replaceAllGo`).
* `Array.prototype.sort` is stable (ECMAScript 2019); it is modelled by insertion sort, which is
  a stable sort.  A `Map` and a `Set` are modelled by the list of their entries in insertion
  order.  The dates of posts are time stamps, modelled as integers.
* The specification is modelled apart from the code: tags, fenced regions and inline regions
  are read off a text unit by unit (`withoutTags`, `fencedRegions`, `withoutFenced`,
  `inlineRegions`, `withoutInline`), words are counted by their first units (`tokenCount`).
* JavaScript numbers are IEEE doubles.  The quotients `textWords / 200` and `codeWords / 100`
  are modelled as exact rationals, `Math.ceil` as the ceiling of a rational.
-/

namespace TechBlog

open scoped List

/-- A JavaScript string as its sequence of UTF-16 code units. -/
abbrev JsString := List Nat

/-- The code units of a Lean string literal whose characters all lie in the Basic Multilingual
Plane (every such character is one code unit, equal to its code point). -/
def js (s : String) : JsString := s.toList.map Char.toNat

/-- Code unit of `<`. -/
abbrev LESS : Nat := 60
/-- Code unit of `>`. -/
abbrev GREATER : Nat := 62
/-- Code unit of the backtick. -/
abbrev TICK : Nat := 96
/-- Code unit of the space character. -/
abbrev SPACE : Nat := 32

/-- The character class `\s` of an ECMAScript regular expression (WhiteSpace and LineTerminator):
TAB, LF, VT, FF, CR, SPACE, NBSP, U+1680, U+2000..U+200A, U+2028, U+2029, U+202F, U+205F,
U+3000 and U+FEFF. -/
def isSpace (u : Nat) : Bool :=
  u == 9 || u == 10 || u == 11 || u == 12 || u == 13 || u == 32 || u == 160 || u == 0x1680 ||
  (0x2000 ≤ u && u ≤ 0x200A) || u == 0x2028 || u == 0x2029 || u == 0x202F || u == 0x205F ||
  u == 0x3000 || u == 0xFEFF

/-! ## Global matching and replacing -/

/-- The scan behind `subject.match(re)` for a global expression `re`: the list of matched
substrings, from left to right.  The counter is the number of code units still covered by the
match found last. -/
def matchAllGo (re : JsString → Option Nat) : Nat → JsString → List JsString
  | _, [] => []
  | k + 1, _ :: rest => matchAllGo re k rest
  | 0, c :: rest =>
    match re (c :: rest) with
    | some n => (c :: rest).take n :: matchAllGo re (n - 1) rest
    | none => matchAllGo re 0 rest

/-- The expression `subject.match(re) || []` for a global expression `re`. -/
def matchAll (re : JsString → Option Nat) (s : JsString) : List JsString :=
  matchAllGo re 0 s

/-- The scan behind `subject.replace(re, '')` for a global expression `re`: the code units that
belong to no match. -/
def removeAllGo (re : JsString → Option Nat) : Nat → JsString → JsString
  | _, [] => []
  | k + 1, _ :: rest => removeAllGo re k rest
  | 0, c :: rest =>
    match re (c :: rest) with
    | some n => removeAllGo re (n - 1) rest
    | none => c :: removeAllGo re 0 rest

/-- The expression `subject.replace(re, '')` for a global expression `re`. -/
def removeAll (re : JsString → Option Nat) (s : JsString) : JsString :=
  removeAllGo re 0 s

/-! ## The three regular expressions of the program -/

/-- Anchored matcher of `/<[^>]*>/`: a `<`, the longest run of code units other than `>`, and a
`>`.  Giving back part of the run cannot help, since the run holds no `>`. -/
def tagRe : JsString → Option Nat
  | [] => none
  | c :: rest =>
    let run := rest.takeWhile (fun u => u != GREATER)
    if c = LESS ∧ (rest.drop run.length).head? = some GREATER then some (run.length + 2) else none

/-- The three backticks that open and close a fenced block. -/
def fence : JsString := [TICK, TICK, TICK]

/-- Offset of the first place at which the three backticks occur. -/
def findFence : JsString → Option Nat
  | [] => none
  | c :: rest => if fence.isPrefixOf (c :: rest) then some 0 else (findFence rest).map (· + 1)

/-- Anchored matcher of ``/```[\s\S]*?```/``: three backticks, the shortest run of arbitrary code
units (line breaks included) after which three backticks follow, and those three backticks. -/
def fenceRe (s : JsString) : Option Nat :=
  if fence.isPrefixOf s then (findFence (s.drop 3)).map (· + 6) else none

/-- Anchored matcher of ``/`[^`]+`/``: a backtick, the longest run of code units other than the
backtick, which must not be empty, and a backtick.  Giving back part of the run cannot help,
since the run holds no backtick. -/
def inlineRe : JsString → Option Nat
  | [] => none
  | c :: rest =>
    let run := rest.takeWhile (fun u => u != TICK)
    if c = TICK ∧ 0 < run.length ∧ (rest.drop run.length).head? = some TICK
    then some (run.length + 2) else none

/-! ## Splitting at white space -/

/-- Whether the text starts with a white-space code unit. -/
def startsWithSpace : JsString → Bool
  | [] => false
  | d :: _ => isSpace d

/-- The expression `subject.split(/\s+/)`: the pieces between the maximal runs of white space.
The empty string gives one empty piece; white space at the very start or end of the subject
gives an empty first or last piece.  A white-space unit that is followed by another one belongs
to the same separator as its successor; one that is not ends a separator, so a new piece
starts behind it; any other unit is put in front of the piece that starts behind it. -/
def splitWs : JsString → List JsString
  | [] => [[]]
  | c :: rest =>
    if isSpace c then
      if startsWithSpace rest then splitWs rest else [] :: splitWs rest
    else
      match splitWs rest with
      | [] => [[c]]
      | piece :: pieces => (c :: piece) :: pieces

/-- The expression `subject.split(/\s+/).filter(word => word.length > 0).length`. -/
def wordCount (s : JsString) : Nat :=
  ((splitWs s).filter (fun word => decide (word.length > 0))).length

/-- The expression `pieces.join(' ')`. -/
def joinSpace (pieces : List JsString) : JsString :=
  [SPACE].intercalate pieces

/-! ## Reading time -/

/-- The constant `codeWords` of `calculateReadingTime` (tests/content/test_reading_time.js). -/
def codeWords (content : JsString) : Nat :=
  let codeBlocks := joinSpace (matchAll fenceRe content)
  let inlineCode := joinSpace (matchAll inlineRe content)
  wordCount (codeBlocks ++ [SPACE] ++ inlineCode)

/-- The constant `textWords` of `calculateReadingTime` (tests/content/test_reading_time.js). -/
def textWords (content : JsString) : Nat :=
  let textContent := removeAll tagRe content
  let textWithoutCode := removeAll inlineRe (removeAll fenceRe textContent)
  wordCount textWithoutCode

/-- The function `calculateReadingTime` of tests/content/test_reading_time.js. -/
def calculateReadingTime (content : JsString) : Nat :=
  let wordsPerMinute : ℚ := 200
  let codeWordsPerMinute : ℚ := 100
  let readingTime := ⌈(textWords content : ℚ) / wordsPerMinute
    + (codeWords content : ℚ) / codeWordsPerMinute⌉₊
  max 1 readingTime

/-- The constant `codeWords` of the filter `readingTime` registered in `.eleventy.js`. -/
def filterCodeWords (content : JsString) : Nat :=
  let codeBlocks := joinSpace (matchAll fenceRe content)
  (splitWs codeBlocks).length

/-- The constant `textWords` of the filter `readingTime` registered in `.eleventy.js`. -/
def filterTextWords (content : JsString) : Nat :=
  let textContent := removeAll tagRe content
  (splitWs (removeAll fenceRe textContent)).length

/-- The filter `readingTime` registered in `.eleventy.js`. -/
def readingTime (content : JsString) : Nat :=
  let wordsPerMinute : ℚ := 200
  let codeWordsPerMinute : ℚ := 100
  let readingTime := ⌈(filterTextWords content : ℚ) / wordsPerMinute
    + (filterCodeWords content : ℚ) / codeWordsPerMinute⌉₊
  readingTime

/-! ## Counting words as the specification describes them -/

/-- Number of white-space-delimited tokens that are not empty: the number of places at which a
code unit other than white space stands at the start of the text or right behind white space.
The flag tells whether the position before the text counts as white space. -/
def tokenCountFrom : Bool → JsString → Nat
  | _, [] => 0
  | prev, c :: rest =>
    (if prev && !isSpace c then 1 else 0) + tokenCountFrom (isSpace c) rest

/-- Number of non-empty white-space-delimited tokens of a text. -/
def tokenCount (s : JsString) : Nat := tokenCountFrom true s

/-! ## Tags and code regions as the specification describes them

The specification speaks of markup tags, of fenced regions and of inline regions of a text.  The
definitions below read a text unit by unit and use neither the scans `matchAll` and `removeAll`
nor the matchers of the three regular expressions. -/

/-- Specification side: the text without its markup tags.  A markup tag runs from a `<` to the
next `>`.  The text is read unit by unit; the state is `none` outside a tag and holds, inside a
tag, the units read since its `<`.  A `<` that no `>` follows opens no tag: it stays, and so do
the units behind it. -/
def stripTagsFrom : Option JsString → JsString → JsString
  | none, [] => []
  | some inside, [] => LESS :: inside
  | none, c :: rest =>
    if c = LESS then stripTagsFrom (some []) rest else c :: stripTagsFrom none rest
  | some inside, c :: rest =>
    if c = GREATER then stripTagsFrom none rest else stripTagsFrom (some (inside ++ [c])) rest

/-- Specification side: the body without its markup tags. -/
def withoutTags (s : JsString) : JsString := stripTagsFrom none s

/-- The state of a reader of fenced regions: outside a region, with the number of backticks
read last that may still become an opening marker, or inside a region, with the units read
since its opening marker. -/
inductive FenceState where
  | outside (ticks : Nat)
  | inside (content : JsString)

/-- Specification side: the fenced regions of a text, each with its two markers.  A fenced
region runs from a marker of three backticks to the next such marker behind it.  Outside a
region the third backtick in a row opens one; inside, the region ends as soon as the units
read since the opening marker end in three backticks.  A region that the text does not close
is no region. -/
def fencedRegionsFrom : FenceState → JsString → List JsString
  | _, [] => []
  | FenceState.outside ticks, c :: rest =>
    if c = TICK then
      if ticks = 2 then fencedRegionsFrom (FenceState.inside []) rest
      else fencedRegionsFrom (FenceState.outside (ticks + 1)) rest
    else fencedRegionsFrom (FenceState.outside 0) rest
  | FenceState.inside content, c :: rest =>
    if fence.isSuffixOf (content ++ [c]) then
      (fence ++ (content ++ [c])) :: fencedRegionsFrom (FenceState.outside 0) rest
    else fencedRegionsFrom (FenceState.inside (content ++ [c])) rest

/-- Specification side: the fenced regions of a text. -/
def fencedRegions (s : JsString) : List JsString := fencedRegionsFrom (FenceState.outside 0) s

/-- Specification side: the text outside the fenced regions; an opening marker that the text
does not close stays, with the units behind it. -/
def withoutFencedFrom : FenceState → JsString → JsString
  | FenceState.outside ticks, [] => List.replicate ticks TICK
  | FenceState.inside content, [] => fence ++ content
  | FenceState.outside ticks, c :: rest =>
    if c = TICK then
      if ticks = 2 then withoutFencedFrom (FenceState.inside []) rest
      else withoutFencedFrom (FenceState.outside (ticks + 1)) rest
    else List.replicate ticks TICK ++ c :: withoutFencedFrom (FenceState.outside 0) rest
  | FenceState.inside content, c :: rest =>
    if fence.isSuffixOf (content ++ [c]) then withoutFencedFrom (FenceState.outside 0) rest
    else withoutFencedFrom (FenceState.inside (content ++ [c])) rest

/-- Specification side: the text without its fenced regions. -/
def withoutFenced (s : JsString) : JsString := withoutFencedFrom (FenceState.outside 0) s

/-- Specification side: the inline regions of a text, each with its two backticks.  An inline
region is a backtick, one or more units other than the backtick, and a backtick.  The state is
`none` outside a region and holds, behind a backtick, the units read since.  Of two backticks in
a row the first opens no region, the second may open one. -/
def inlineRegionsFrom : Option JsString → JsString → List JsString
  | _, [] => []
  | none, c :: rest =>
    if c = TICK then inlineRegionsFrom (some []) rest else inlineRegionsFrom none rest
  | some inside, c :: rest =>
    if c = TICK then
      if inside = [] then inlineRegionsFrom (some []) rest
      else (TICK :: (inside ++ [TICK])) :: inlineRegionsFrom none rest
    else inlineRegionsFrom (some (inside ++ [c])) rest

/-- Specification side: the inline regions of a text. -/
def inlineRegions (s : JsString) : List JsString := inlineRegionsFrom none s

/-- Specification side: the text outside the inline regions; a backtick that opens no region
stays. -/
def withoutInlineFrom : Option JsString → JsString → JsString
  | none, [] => []
  | some inside, [] => TICK :: inside
  | none, c :: rest =>
    if c = TICK then withoutInlineFrom (some []) rest else c :: withoutInlineFrom none rest
  | some inside, c :: rest =>
    if c = TICK then
      if inside = [] then TICK :: withoutInlineFrom (some []) rest
      else withoutInlineFrom none rest
    else withoutInlineFrom (some (inside ++ [c])) rest

/-- Specification side: the text without its inline regions. -/
def withoutInline (s : JsString) : JsString := withoutInlineFrom none s

/-- Specification side, `textWords`: the non-empty white-space-delimited tokens of the body after
removing markup tags, then fenced regions, then inline regions. -/
def specTextWords (body : JsString) : Nat :=
  tokenCount (withoutInline (withoutFenced (withoutTags body)))

/-- Specification side: the code regions of a body, which are its fenced regions and then the
inline regions of what stands outside the fenced regions. -/
def codeRegions (body : JsString) : List JsString :=
  fencedRegions body ++ inlineRegions (withoutFenced body)

/-- Specification side, `codeWords` as C3 words it: the non-empty white-space-delimited tokens
of the concatenated code regions. -/
def specCodeWords (body : JsString) : Nat :=
  tokenCount (codeRegions body).flatten

/-- Specification side, the estimate as C3 words it: `max(1, ceil(textWords / 200 +
codeWords / 100))` in exact rational arithmetic. -/
def specMinutes (body : JsString) : Nat :=
  max 1 ⌈(specTextWords body : ℚ) / 200 + (specCodeWords body : ℚ) / 100⌉₊

/-- Specification side, `codeWords` with every code region counted on its own: the sum of the
numbers of non-empty white-space-delimited tokens of the code regions. -/
def regionCodeWords (body : JsString) : Nat :=
  ((codeRegions body).map tokenCount).sum

/-- Specification side, the estimate with every code region counted on its own. -/
def regionMinutes (body : JsString) : Nat :=
  max 1 ⌈(specTextWords body : ℚ) / 200 + (regionCodeWords body : ℚ) / 100⌉₊

/-- A body of 101 inline regions that stand side by side, each the letter `a` between two
backticks. -/
def inlineRun : JsString := (List.replicate 101 [TICK, 97, TICK]).flatten

/-- A body with a tag pair, prose, three inline regions of which two stand side by side, and a
fenced region without content. -/
def mixedBody : JsString :=
  js "<p>Call " ++ [TICK] ++ js "f x" ++ [TICK] ++ js " then " ++ [TICK] ++ js "g" ++ [TICK]
    ++ [TICK] ++ js "h" ++ [TICK] ++ js " and " ++ fence ++ fence ++ js " twice</p>"

/-- The words of a prose text behind its first word: each one comes with the gap before it. -/
def proseTail : List (JsString × JsString) → JsString
  | [] => []
  | (gap, word) :: more => gap ++ word ++ proseTail more

/-- A prose text: white space, a first word, further words each behind a gap, white space. -/
def proseBody (lead first : JsString) (more : List (JsString × JsString)) (trail : JsString) :
    JsString :=
  lead ++ first ++ proseTail more ++ trail

/-! ## Posts and their tags -/

/-- A collection item of Eleventy, with the fields the configuration reads: the path of the
source file, `date` (as a time stamp), `data.tags` (absent from the front matter, or a sequence
of strings), `data.draft` and `data.featured`. -/
structure Post where
  inputPath : JsString
  date : Int
  tags : Option (List JsString)
  draft : Bool
  featured : Bool
  deriving DecidableEq, Repr

/-- The expression `item.data.tags || []` (in places written `post.data?.tags || []`). -/
def tagsOf (item : Post) : List JsString := item.tags.getD []

/-- The reserved tag `'post'`, which marks every post and is left out of the tag listings. -/
def reservedTag : JsString := js "post"

/-- The call `tagSet.add(tag)` on a `Set`, which keeps its elements in insertion order: a value
that is in the set already is not added again. -/
def setAdd (tagSet : List JsString) (tag : JsString) : List JsString :=
  if tag ∈ tagSet then tagSet else tagSet ++ [tag]

/-- The expression `Array.from(tagSet).sort()`: without a compare function `sort` orders strings
by their code units, lexicographically.  The elements of a set are distinct, so the order fixes
the result, whatever the sorting algorithm. -/
def sortTags (tagSet : List JsString) : List JsString :=
  List.insertionSort (fun a b => a ≤ b) tagSet

/-- The collection `tagList` of `.eleventy.js`, as a function of the items that match the glob
`src/posts/*.md`. -/
def tagList (collection : List Post) : List JsString :=
  let tagSet := collection.foldl (fun tagSet item =>
    (tagsOf item).foldl (fun tagSet tag =>
      if tag ≠ reservedTag then setAdd tagSet tag else tagSet) tagSet) []
  sortTags tagSet

/-- The filter `getAllTags` of `.eleventy.js`. -/
def getAllTags (posts : List Post) : List JsString :=
  let tagSet := posts.foldl (fun tagSet post =>
    (tagsOf post).foldl (fun tagSet tag =>
      if tag ≠ reservedTag then setAdd tagSet tag else tagSet) tagSet) []
  sortTags tagSet

/-- A post that has the given tags and nothing else of interest. -/
def taggedPost (path : String) (tags : List String) : Post :=
  { inputPath := js path, date := 0, tags := some (tags.map js), draft := false,
    featured := false }

/-- The three articles of the example in the specification. -/
def examplePosts : List Post :=
  [taggedPost "a.md" ["js", "tutorial"], taggedPost "b.md" ["py", "tutorial"],
    taggedPost "c.md" ["js", "perf"]]

/-! ## The tag index -/

/-- A `Map` from tags to arrays of posts, as the list of its entries in insertion order (the order
in which a `Map` enumerates its keys). -/
abbrev TagMap := List (JsString × List Post)

/-- The keys of a map, in the order the map enumerates them. -/
def mapKeys (tagMap : TagMap) : List JsString := tagMap.map Prod.fst

/-- The call `tagMap.has(tag)`. -/
def mapHas (tagMap : TagMap) (tag : JsString) : Bool := decide (tag ∈ mapKeys tagMap)

/-- The call `tagMap.get(tag)`; `none` stands for `undefined`. -/
def mapGet : TagMap → JsString → Option (List Post)
  | [], _ => none
  | entry :: rest, tag => if entry.1 = tag then some entry.2 else mapGet rest tag

/-- The call `tagMap.set(tag, value)`: a key that is present keeps its place, a new key is put
behind all others. -/
def mapSet (tagMap : TagMap) (tag : JsString) (value : List Post) : TagMap :=
  if mapHas tagMap tag then tagMap.map (fun entry => if entry.1 = tag then (tag, value) else entry)
  else tagMap ++ [(tag, value)]

/-- The call `tagMap.get(tag).push(post)`: the array stored under the key grows by one element. -/
def mapPush (tagMap : TagMap) (tag : JsString) (post : Post) : TagMap :=
  tagMap.map (fun entry => if entry.1 = tag then (entry.1, entry.2 ++ [post]) else entry)

/-- The body of the inner `forEach` of the collection `postsByTag`, run for one tag of one post. -/
def bucketStep (post : Post) (tagMap : TagMap) (tag : JsString) : TagMap :=
  if tag ≠ reservedTag then
    mapPush (if !mapHas tagMap tag then mapSet tagMap tag [] else tagMap) tag post
  else tagMap

/-- The expression `posts.sort((a, b) => b.date - a.date)` on posts with valid dates: the posts
in the order of falling dates.  `Array.prototype.sort` is stable (ECMAScript 2019), which fixes
the result; the insertion sort used here is a stable sort. -/
def sortByDate (posts : List Post) : List Post :=
  List.insertionSort (fun a b => b.date ≤ a.date) posts

/-- The map of the collection `postsByTag` when its first `forEach` is done, before the buckets
are sorted. -/
def buildTagMap (posts : List Post) : TagMap :=
  posts.foldl (fun tagMap post => (tagsOf post).foldl (bucketStep post) tagMap) []

/-- The collection `postsByTag` of `.eleventy.js`, as a function of the items that match the glob
`src/posts/*.md`. -/
def postsByTag (collection : List Post) : TagMap :=
  (buildTagMap collection).map (fun entry => (entry.1, sortByDate entry.2))

/-- The bucket of a tag in the tag index, empty when the tag is not a key. -/
def bucket (tagMap : TagMap) (tag : JsString) : List Post := (mapGet tagMap tag).getD []

/-- The filter `filterByTag` of `.eleventy.js`.  The empty string is the only string for which
`!tag` holds. -/
def filterByTag (posts : List Post) (tag : JsString) : List Post :=
  if tag = [] then posts
  else posts.filter (fun post => decide (tag ∈ tagsOf post))

/-- The filter `getTagCount` of `.eleventy.js`. -/
def getTagCount (posts : List Post) (tag : JsString) : Nat :=
  (posts.filter (fun post => decide (tag ∈ tagsOf post))).length

/-- The posts that are pushed to the bucket of a tag, in the order of the pushes: the posts of
the collection in their order, each one once for every occurrence of the tag in its tag list. -/
def pushedFor : List Post → JsString → List Post
  | [], _ => []
  | post :: rest, tag => List.replicate ((tagsOf post).count tag) post ++ pushedFor rest tag

/-- The tags of all posts, post after post, each tag list in its order. -/
def allTags : List Post → List JsString
  | [] => []
  | post :: rest => tagsOf post ++ allTags rest

/-- A sequence without its repetitions: of every value the first occurrence stays. -/
def firstOccurrences : List JsString → List JsString
  | [] => []
  | tag :: rest => tag :: (firstOccurrences rest).filter (fun other => decide (other ≠ tag))

/-- A post with given tags, date and draft flag. -/
def datedPost (path : String) (tags : List String) (date : Int) (draft : Bool) : Post :=
  { inputPath := js path, date := date, tags := some (tags.map js), draft := draft,
    featured := false }

/-- A post whose front matter has no `tags` field. -/
def untaggedPost (path : String) : Post :=
  { inputPath := js path, date := 0, tags := none, draft := false, featured := false }

/-- Three posts tagged `js` with the dates 3, 9 and 5. -/
def threeDates : List Post :=
  [datedPost "a.md" ["js"] 3 false, datedPost "b.md" ["js"] 9 false,
    datedPost "c.md" ["js"] 5 false]

/-- Four posts tagged `js`, the first and the third of them with the date 5. -/
def twoOfOneDate : List Post :=
  [datedPost "a.md" ["js"] 5 false, datedPost "b.md" ["js"] 9 false,
    datedPost "c.md" ["js"] 5 false, datedPost "d.md" ["js"] 7 false]

/-- The four articles of the test `testTagFilteringLogic`. -/
def mockArticles : List Post :=
  [taggedPost "1.md" ["javascript", "tutorial"], taggedPost "2.md" ["python", "tutorial"],
    taggedPost "3.md" ["javascript", "performance"], taggedPost "4.md" ["css", "design"]]

/-! ## The collections of posts -/

/-- The collection `posts` of `.eleventy.js`, as a function of the items that match the glob
`src/posts/*.md`. -/
def postsCollection (collection : List Post) : List Post :=
  sortByDate (collection.filter (fun item => !item.draft))

/-- The collection `featuredPosts` of `.eleventy.js`; `slice(0, 3)` keeps the first three
elements, or all when there are fewer. -/
def featuredPosts (collection : List Post) : List Post :=
  (sortByDate (collection.filter (fun item => item.featured && !item.draft))).take 3

/-- The collection `recentPosts` of `.eleventy.js`. -/
def recentPosts (collection : List Post) : List Post :=
  (sortByDate (collection.filter (fun item => !item.draft))).take 5

/-! ## The content filters -/

/-- The scan behind `subject.replace(re, fn)` for a global expression `re` and a function `fn`:
every match is replaced by what `fn` returns for it, the other code units stay. -/
def replaceAllGo (re : JsString → Option Nat) (fn : JsString → JsString) :
    Nat → JsString → JsString
  | _, [] => []
  | k + 1, _ :: rest => replaceAllGo re fn k rest
  | 0, c :: rest =>
    match re (c :: rest) with
    | some n => fn ((c :: rest).take n) ++ replaceAllGo re fn (n - 1) rest
    | none => c :: replaceAllGo re fn 0 rest

/-- Code unit of `&`. -/
abbrev AMPERSAND : Nat := 38
/-- Code unit of the double quote. -/
abbrev QUOTE : Nat := 34
/-- Code unit of the apostrophe. -/
abbrev APOSTROPHE : Nat := 39

/-- Whether a code unit is one of the five that the class `[&<>"']` holds. -/
def isSpecial (u : Nat) : Bool :=
  u == AMPERSAND || u == LESS || u == GREATER || u == QUOTE || u == APOSTROPHE

/-- Anchored matcher of `/[&<>"']/`: one code unit of the class. -/
def specialRe : JsString → Option Nat
  | [] => none
  | c :: _ => if isSpecial c then some 1 else none

/-- The lookup `escapeMap[match]`; a key that the object does not have gives `undefined`, which
`replace` inserts as the text `undefined`. -/
def escapeMap (m : JsString) : JsString :=
  if m = js "&" then js "&amp;"
  else if m = js "<" then js "&lt;"
  else if m = js ">" then js "&gt;"
  else if m = js "\"" then js "&quot;"
  else if m = js "'" then js "&#39;"
  else js "undefined"

/-- The filter `escape` of `.eleventy.js`; `none` stands for a missing input. -/
def escape (content : Option JsString) : JsString :=
  replaceAllGo specialRe escapeMap 0 (content.getD [])

/-- The five entities that `escape` writes. -/
def entities : List JsString :=
  [js "&amp;", js "&lt;", js "&gt;", js "&quot;", js "&#39;"]

/-- The call `subject.lastIndexOf(unit)` for a single code unit: the largest index at which the
unit stands, `-1` when it stands nowhere. -/
def lastIndexOf : JsString → Nat → Int
  | [], _ => -1
  | c :: rest, u =>
    if 0 ≤ lastIndexOf rest u then lastIndexOf rest u + 1
    else if c = u then 0 else -1

/-- The call `subject.substring(0, n)` for an integer `n`; a negative `n` counts as 0. -/
def substring0 (s : JsString) (n : Int) : JsString := s.take n.toNat

/-- The filter `excerpt` of `.eleventy.js` for a limit `length` that is a natural number (the
filter takes 200 when no limit is given).  The empty string is the only string for which
`!content` holds. -/
def excerpt (content : JsString) (length : Nat) : JsString :=
  if content = [] then []
  else
    let text := removeAll tagRe content
    if text.length ≤ length then text
    else
      let truncated := substring0 text length
      let lastSpace := lastIndexOf truncated SPACE
      if lastSpace > 0 then substring0 truncated lastSpace ++ js "..."
      else truncated ++ js "..."

/-- The call `subject.trim()`: the text without the white space at its start and at its end. -/
def trim (s : JsString) : JsString :=
  ((s.dropWhile isSpace).reverse.dropWhile isSpace).reverse

/-- The filter `wordcount` of `.eleventy.js`. -/
def wordcount (content : JsString) : Nat :=
  if content = [] then 0
  else
    let text := removeAll tagRe content
    (splitWs (trim text)).length

/-! ## The article schema -/

/-- An element of the `tags` array of a front matter: a string, or a value of another type,
which is kept as the text that a template literal makes of it. -/
inductive TagValue where
  | str (s : JsString)
  | nonString (shown : JsString)
  deriving DecidableEq, Repr

/-- The messages of `validateArticleSchema` (tests/content/test_article_schema.js) that concern
the tags and the length of the content: `Tags are required and must be an array`,
`Must have 1-10 tags`, `Tag "${tag}" must be lowercase alphanumeric with hyphens only` (with the
text that stands for the tag), `Content must be at least 200 words`. -/
inductive SchemaError where
  | tagsRequired
  | tagCount
  | tagFormat (shown : JsString)
  | contentTooShort
  deriving DecidableEq, Repr

/-- Whether a code unit belongs to the class `[a-z0-9-]`. -/
def isTagUnit (u : Nat) : Bool :=
  (97 ≤ u && u ≤ 122) || (48 ≤ u && u ≤ 57) || u == 45

/-- The call `/^[a-z0-9-]+$/.test(tag)` on a string: from the start of the subject, the longest
run of code units of the class, which must not be empty and must reach the end of the subject
(without the `m` flag `$` holds at the end of the subject only). -/
def tagFormatTest (tag : JsString) : Bool :=
  let run := tag.takeWhile isTagUnit
  decide (0 < run.length) && (tag.drop run.length).isEmpty

/-- The text `${tag}` that the message shows for a tag. -/
def TagValue.shown : TagValue → JsString
  | TagValue.str s => s
  | TagValue.nonString shown => shown

/-- The body of the `forEach` over the tags in `validateArticleSchema`: the errors it pushes
for one tag. -/
def tagErrors (tag : TagValue) : List SchemaError :=
  match tag with
  | TagValue.str s => if !tagFormatTest s then [SchemaError.tagFormat s] else []
  | TagValue.nonString shown => [SchemaError.tagFormat shown]

/-- The part of `validateArticleSchema` that checks `frontmatter.tags`; `none` stands for a
`tags` field that is missing or not an array. -/
def validateTags (tags : Option (List TagValue)) : List SchemaError :=
  match tags with
  | none => [SchemaError.tagsRequired]
  | some tags =>
    (if tags.length = 0 ∨ tags.length > 10 then [SchemaError.tagCount] else [])
      ++ (tags.map tagErrors).flatten

/-- The part of `validateArticleSchema` that checks the length of the content, as a function
of `parts[2]`, the text behind the front matter. -/
def validateContent (part2 : JsString) : List SchemaError :=
  let markdownContent := trim part2
  if markdownContent.length < 200 then [SchemaError.contentTooShort] else []

/-- Specification side: a tag in the canonical pattern is a string of one or more code units
out of `a-z`, `0-9` and `-`. -/
def isCanonicalTag : TagValue → Bool
  | TagValue.str s => !s.isEmpty && s.all isTagUnit
  | TagValue.nonString _ => false

/-! ## Arithmetic of the estimate -/

theorem ceil_minutes (t c : Nat) :
    ⌈(t : ℚ) / 200 + (c : ℚ) / 100⌉₊ = (t + 2 * c + 199) / 200 := by
  have hx : (t : ℚ) / 200 + (c : ℚ) / 100 = ((t + 2 * c : ℕ) : ℚ) / 200 := by
    push_cast; ring
  rw [hx]
  generalize t + 2 * c = n
  apply le_antisymm
  · rw [Nat.ceil_le, div_le_iff₀ (by norm_num)]
    have h : n ≤ (n + 199) / 200 * 200 := by omega
    exact_mod_cast h
  · have h1 : (n : ℚ) / 200 ≤ (⌈(n : ℚ) / 200⌉₊ : ℚ) := Nat.le_ceil _
    rw [div_le_iff₀ (by norm_num)] at h1
    have h2 : n ≤ ⌈(n : ℚ) / 200⌉₊ * 200 := by exact_mod_cast h1
    omega

theorem calculateReadingTime_eq (content : JsString) :
    calculateReadingTime content
      = max 1 ((textWords content + 2 * codeWords content + 199) / 200) := by
  unfold calculateReadingTime
  simp only [ceil_minutes]

theorem readingTime_eq (content : JsString) :
    readingTime content
      = (filterTextWords content + 2 * filterCodeWords content + 199) / 200 := by
  unfold readingTime
  simp only [ceil_minutes]

/-! ## Splitting and counting -/

theorem splitWs_ne_nil (s : JsString) : splitWs s ≠ [] := by
  cases s with
  | nil => simp [splitWs]
  | cons c rest =>
    rw [splitWs]
    split
    · split
      · exact splitWs_ne_nil rest
      · simp
    · split <;> simp

theorem splitWs_length_pos (s : JsString) : 1 ≤ (splitWs s).length := by
  have h := splitWs_ne_nil s
  cases hs : splitWs s with
  | nil => exact absurd hs h
  | cons a l => simp

theorem tokenCountFrom_of_startsWithSpace (b : Bool) (s : JsString)
    (h : startsWithSpace s = true) : tokenCountFrom b s = tokenCountFrom true s := by
  cases s with
  | nil => simp [startsWithSpace] at h
  | cons d r =>
    simp only [startsWithSpace] at h
    simp [tokenCountFrom, h]

theorem splitWs_count (s : JsString) :
    ((splitWs s).filter (fun word => decide (word.length > 0))).length = tokenCountFrom true s
    ∧ ((splitWs s).tail.filter (fun word => decide (word.length > 0))).length
        = tokenCountFrom false s := by
  induction s with
  | nil => simp [splitWs, tokenCountFrom]
  | cons c rest ih =>
    obtain ⟨ih1, ih2⟩ := ih
    rw [splitWs]
    by_cases hc : isSpace c = true
    · by_cases hs : startsWithSpace rest = true
      · have h := tokenCountFrom_of_startsWithSpace false rest hs
        simp [hc, hs, tokenCountFrom, ih1, ih2, h]
      · simp [hc, hs, tokenCountFrom, ih1]
    · cases hsp : splitWs rest with
      | nil => exact absurd hsp (splitWs_ne_nil rest)
      | cons piece pieces =>
        rw [hsp] at ih2
        simp only [List.tail_cons] at ih2
        simp [hc, tokenCountFrom, ih2]
        omega

theorem wordCount_eq_tokenCount (s : JsString) : wordCount s = tokenCount s :=
  (splitWs_count s).1

/-! ## Scans over a subject without a match -/

theorem removeAllGo_of_no_match (re : JsString → Option Nat) (s : JsString)
    (h : ∀ t, t <:+ s → re t = none) : removeAllGo re 0 s = s := by
  induction s with
  | nil => simp [removeAllGo]
  | cons c rest ih =>
    have hc : re (c :: rest) = none := h _ (List.suffix_refl _)
    have hr : ∀ t, t <:+ rest → re t = none :=
      fun t ht => h t (ht.trans (List.suffix_cons c rest))
    simp [removeAllGo, hc, ih hr]

theorem matchAllGo_of_no_match (re : JsString → Option Nat) (s : JsString)
    (h : ∀ t, t <:+ s → re t = none) : matchAllGo re 0 s = [] := by
  induction s with
  | nil => simp [matchAllGo]
  | cons c rest ih =>
    have hc : re (c :: rest) = none := h _ (List.suffix_refl _)
    have hr : ∀ t, t <:+ rest → re t = none :=
      fun t ht => h t (ht.trans (List.suffix_cons c rest))
    simp [matchAllGo, hc, ih hr]

theorem tagRe_of_not_mem (s t : JsString) (h : LESS ∉ s) (ht : t <:+ s) : tagRe t = none := by
  cases t with
  | nil => rfl
  | cons c rest =>
    have hc : c ≠ LESS := fun e => h (e ▸ ht.subset (List.mem_cons_self c rest))
    simp [tagRe, hc]

theorem inlineRe_of_not_mem (s t : JsString) (h : TICK ∉ s) (ht : t <:+ s) :
    inlineRe t = none := by
  cases t with
  | nil => rfl
  | cons c rest =>
    have hc : c ≠ TICK := fun e => h (e ▸ ht.subset (List.mem_cons_self c rest))
    simp [inlineRe, hc]

theorem fenceRe_of_not_mem (s t : JsString) (h : TICK ∉ s) (ht : t <:+ s) :
    fenceRe t = none := by
  cases t with
  | nil => rfl
  | cons c rest =>
    have hc : c ≠ TICK := fun e => h (e ▸ ht.subset (List.mem_cons_self c rest))
    have hc2 : ¬ (TICK = c) := fun e => hc e.symm
    simp [fenceRe, fence, List.isPrefixOf, hc2]

/-- Without a backtick nothing is code, without a `<` nothing is a tag: the text is counted as
it stands and no code word is found. -/
theorem counts_of_plain (s : JsString) (hl : LESS ∉ s) (ht : TICK ∉ s) :
    textWords s = tokenCount s ∧ codeWords s = 0 := by
  have h1 : removeAll tagRe s = s :=
    removeAllGo_of_no_match _ _ (fun t h => tagRe_of_not_mem s t hl h)
  have h2 : removeAll fenceRe s = s :=
    removeAllGo_of_no_match _ _ (fun t h => fenceRe_of_not_mem s t ht h)
  have h3 : removeAll inlineRe s = s :=
    removeAllGo_of_no_match _ _ (fun t h => inlineRe_of_not_mem s t ht h)
  have h4 : matchAll fenceRe s = [] :=
    matchAllGo_of_no_match _ _ (fun t h => fenceRe_of_not_mem s t ht h)
  have h5 : matchAll inlineRe s = [] :=
    matchAllGo_of_no_match _ _ (fun t h => inlineRe_of_not_mem s t ht h)
  constructor
  · simp only [textWords, h1, h2, h3, wordCount_eq_tokenCount]
  · simp only [codeWords, h4, h5]
    decide

/-! ## Counting the words of a prose text -/

theorem tokenCountFrom_white (b : Bool) (sp : JsString) (h : ∀ u ∈ sp, isSpace u = true) :
    tokenCountFrom b sp = 0 := by
  induction sp generalizing b with
  | nil => rfl
  | cons c rest ih =>
    have hc : isSpace c = true := h c (List.mem_cons_self c rest)
    have hr := ih true (fun u hu => h u (List.mem_cons_of_mem c hu))
    simp [tokenCountFrom, hc, hr]

theorem tokenCountFrom_white_append (sp s : JsString) (h : ∀ u ∈ sp, isSpace u = true) :
    tokenCountFrom true (sp ++ s) = tokenCountFrom true s := by
  induction sp with
  | nil => rfl
  | cons c rest ih =>
    have hc : isSpace c = true := h c (List.mem_cons_self c rest)
    have hr := ih (fun u hu => h u (List.mem_cons_of_mem c hu))
    simp [tokenCountFrom, hc, hr]

theorem tokenCountFrom_gap_append (b : Bool) (sp s : JsString)
    (h : ∀ u ∈ sp, isSpace u = true) (hne : sp ≠ []) :
    tokenCountFrom b (sp ++ s) = tokenCountFrom true s := by
  cases sp with
  | nil => exact absurd rfl hne
  | cons c rest =>
    have hc : isSpace c = true := h c (List.mem_cons_self c rest)
    have hr := tokenCountFrom_white_append rest s (fun u hu => h u (List.mem_cons_of_mem c hu))
    simp [tokenCountFrom, hc, hr]

theorem tokenCountFrom_false_word_append (w s : JsString) (h : ∀ u ∈ w, isSpace u = false) :
    tokenCountFrom false (w ++ s) = tokenCountFrom false s := by
  induction w with
  | nil => rfl
  | cons c rest ih =>
    have hc : isSpace c = false := h c (List.mem_cons_self c rest)
    have hr := ih (fun u hu => h u (List.mem_cons_of_mem c hu))
    simp [tokenCountFrom, hc, hr]

theorem tokenCountFrom_true_word_append (w s : JsString) (h : ∀ u ∈ w, isSpace u = false)
    (hne : w ≠ []) : tokenCountFrom true (w ++ s) = 1 + tokenCountFrom false s := by
  cases w with
  | nil => exact absurd rfl hne
  | cons c rest =>
    have hc : isSpace c = false := h c (List.mem_cons_self c rest)
    have hr := tokenCountFrom_false_word_append rest s
      (fun u hu => h u (List.mem_cons_of_mem c hu))
    simp [tokenCountFrom, hc, hr]

theorem tokenCountFrom_proseTail (more : List (JsString × JsString)) (trail : JsString)
    (hmore : ∀ p ∈ more, (p.1 ≠ [] ∧ ∀ u ∈ p.1, isSpace u = true)
      ∧ (p.2 ≠ [] ∧ ∀ u ∈ p.2, isSpace u = false))
    (htrail : ∀ u ∈ trail, isSpace u = true) :
    tokenCountFrom false (proseTail more ++ trail) = more.length := by
  induction more with
  | nil => simpa [proseTail] using tokenCountFrom_white false trail htrail
  | cons p rest ih =>
    obtain ⟨gap, word⟩ := p
    obtain ⟨⟨hg1, hg2⟩, hw1, hw2⟩ := hmore (gap, word) (List.mem_cons_self _ _)
    have hr := ih (fun q hq => hmore q (List.mem_cons_of_mem _ hq))
    simp only [proseTail, List.append_assoc, List.length_cons]
    rw [tokenCountFrom_gap_append false gap _ hg2 hg1,
      tokenCountFrom_true_word_append word _ hw2 hw1, hr]
    omega

theorem tokenCount_proseBody (lead first : JsString) (more : List (JsString × JsString))
    (trail : JsString)
    (hlead : ∀ u ∈ lead, isSpace u = true)
    (hfirst : first ≠ [] ∧ ∀ u ∈ first, isSpace u = false)
    (hmore : ∀ p ∈ more, (p.1 ≠ [] ∧ ∀ u ∈ p.1, isSpace u = true)
      ∧ (p.2 ≠ [] ∧ ∀ u ∈ p.2, isSpace u = false))
    (htrail : ∀ u ∈ trail, isSpace u = true) :
    tokenCount (proseBody lead first more trail) = more.length + 1 := by
  simp only [tokenCount, proseBody, List.append_assoc]
  rw [tokenCountFrom_white_append lead _ hlead,
    tokenCountFrom_true_word_append first _ hfirst.2 hfirst.1,
    tokenCountFrom_proseTail more trail hmore htrail]
  omega

theorem not_mem_proseTail (x : Nat) (hx : isSpace x = false)
    (more : List (JsString × JsString))
    (hmore : ∀ p ∈ more, (∀ u ∈ p.1, isSpace u = true) ∧ x ∉ p.2) :
    x ∉ proseTail more := by
  induction more with
  | nil => simp [proseTail]
  | cons p rest ih =>
    obtain ⟨gap, word⟩ := p
    obtain ⟨hg, hw⟩ := hmore (gap, word) (List.mem_cons_self _ _)
    have hr := ih (fun q hq => hmore q (List.mem_cons_of_mem _ hq))
    simp only [proseTail, List.mem_append, not_or]
    refine ⟨⟨fun hmem => ?_, hw⟩, hr⟩
    have := hg x hmem
    simp [hx] at this

theorem not_mem_proseBody (x : Nat) (hx : isSpace x = false)
    (lead first : JsString) (more : List (JsString × JsString)) (trail : JsString)
    (hlead : ∀ u ∈ lead, isSpace u = true) (hfirst : x ∉ first)
    (hmore : ∀ p ∈ more, (∀ u ∈ p.1, isSpace u = true) ∧ x ∉ p.2)
    (htrail : ∀ u ∈ trail, isSpace u = true) :
    x ∉ proseBody lead first more trail := by
  simp only [proseBody, List.mem_append, not_or]
  refine ⟨⟨⟨fun hmem => ?_, hfirst⟩, not_mem_proseTail x hx more hmore⟩, fun hmem => ?_⟩
  · have := hlead x hmem
    simp [hx] at this
  · have := htrail x hmem
    simp [hx] at this

theorem joinSpace_replicate_succ (w : JsString) (n : Nat) :
    joinSpace (List.replicate (n + 1) w)
      = proseBody [] w (List.replicate n ([SPACE], w)) [] := by
  induction n with
  | zero => simp [joinSpace, proseBody, proseTail, List.intercalate]
  | succ k ih =>
    have h : joinSpace (List.replicate (k + 1 + 1) w)
        = w ++ [SPACE] ++ joinSpace (List.replicate (k + 1) w) := by
      simp [joinSpace, List.intercalate, List.replicate_succ, List.intersperse]
    rw [h, ih]
    simp [proseBody, proseTail, List.replicate_succ]

theorem ceil_div_200 (n : Nat) : ⌈(n : ℚ) / 200⌉₊ = (n + 199) / 200 := by
  have h := ceil_minutes n 0
  simpa using h

theorem calculateReadingTime_proseBody (lead first : JsString)
    (more : List (JsString × JsString)) (trail : JsString)
    (hlead : ∀ u ∈ lead, isSpace u = true)
    (hfirst : first ≠ [] ∧ ∀ u ∈ first, isSpace u = false ∧ u ≠ TICK ∧ u ≠ LESS)
    (hmore : ∀ p ∈ more, (p.1 ≠ [] ∧ ∀ u ∈ p.1, isSpace u = true)
      ∧ (p.2 ≠ [] ∧ ∀ u ∈ p.2, isSpace u = false ∧ u ≠ TICK ∧ u ≠ LESS))
    (htrail : ∀ u ∈ trail, isSpace u = true) :
    calculateReadingTime (proseBody lead first more trail)
      = max 1 ((more.length + 1 + 199) / 200) := by
  have hl : LESS ∉ proseBody lead first more trail :=
    not_mem_proseBody LESS (by decide) lead first more trail hlead
      (fun hm => (hfirst.2 _ hm).2.2 rfl)
      (fun p hp => ⟨(hmore p hp).1.2, fun hm => ((hmore p hp).2.2 _ hm).2.2 rfl⟩) htrail
  have ht : TICK ∉ proseBody lead first more trail :=
    not_mem_proseBody TICK (by decide) lead first more trail hlead
      (fun hm => (hfirst.2 _ hm).2.1 rfl)
      (fun p hp => ⟨(hmore p hp).1.2, fun hm => ((hmore p hp).2.2 _ hm).2.1 rfl⟩) htrail
  obtain ⟨h1, h2⟩ := counts_of_plain _ hl ht
  have h3 := tokenCount_proseBody lead first more trail hlead
    ⟨hfirst.1, fun u hu => (hfirst.2 u hu).1⟩
    (fun p hp => ⟨(hmore p hp).1, (hmore p hp).2.1, fun u hu => ((hmore p hp).2.2 u hu).1⟩)
    htrail
  rw [calculateReadingTime_eq, h1, h2, h3]

/-! ## The number of pieces of a prose text -/

theorem splitWs_length_word_append (w s : JsString) (h : ∀ u ∈ w, isSpace u = false) :
    (splitWs (w ++ s)).length = (splitWs s).length := by
  induction w with
  | nil => rfl
  | cons c rest ih =>
    have hc : isSpace c = false := h c (List.mem_cons_self c rest)
    have hr := ih (fun u hu => h u (List.mem_cons_of_mem c hu))
    rw [List.cons_append, splitWs]
    cases hsp : splitWs (rest ++ s) with
    | nil => exact absurd hsp (splitWs_ne_nil _)
    | cons piece pieces =>
      rw [hsp] at hr
      simp [hc, ← hr]

theorem splitWs_length_gap_append (g s : JsString) (h : ∀ u ∈ g, isSpace u = true)
    (hne : g ≠ []) (hs : startsWithSpace s = false) :
    (splitWs (g ++ s)).length = (splitWs s).length + 1 := by
  induction g with
  | nil => exact absurd rfl hne
  | cons c rest ih =>
    have hc : isSpace c = true := h c (List.mem_cons_self c rest)
    rw [List.cons_append, splitWs]
    cases rest with
    | nil => simp [hc, hs]
    | cons d r =>
      have hd : isSpace d = true := h d (List.mem_cons_of_mem c (List.mem_cons_self d r))
      have hr := ih (fun u hu => h u (List.mem_cons_of_mem c hu)) (by simp)
      simp only [List.cons_append] at hr
      simp [hc, startsWithSpace, hd, hr]

theorem startsWithSpace_word_append (w s : JsString) (h : ∀ u ∈ w, isSpace u = false)
    (hne : w ≠ []) : startsWithSpace (w ++ s) = false := by
  cases w with
  | nil => exact absurd rfl hne
  | cons c rest => simpa [startsWithSpace] using h c (List.mem_cons_self c rest)

theorem splitWs_length_proseTail (more : List (JsString × JsString))
    (hmore : ∀ p ∈ more, (p.1 ≠ [] ∧ ∀ u ∈ p.1, isSpace u = true)
      ∧ (p.2 ≠ [] ∧ ∀ u ∈ p.2, isSpace u = false)) :
    (splitWs (proseTail more)).length = more.length + 1 := by
  induction more with
  | nil => simp [proseTail, splitWs]
  | cons p rest ih =>
    obtain ⟨gap, word⟩ := p
    obtain ⟨⟨hg1, hg2⟩, hw1, hw2⟩ := hmore (gap, word) (List.mem_cons_self _ _)
    have hr := ih (fun q hq => hmore q (List.mem_cons_of_mem _ hq))
    simp only [proseTail, List.append_assoc, List.length_cons]
    rw [splitWs_length_gap_append gap _ hg2 hg1 (startsWithSpace_word_append word _ hw2 hw1),
      splitWs_length_word_append word _ hw2, hr]

/-- The filter `readingTime` on a prose text that neither starts nor ends with white space: every
word is a text word, and the empty code-region text is split into one (empty) piece, which the
filter counts as a code word. -/
theorem readingTime_proseBody (first : JsString) (more : List (JsString × JsString))
    (hfirst : first ≠ [] ∧ ∀ u ∈ first, isSpace u = false ∧ u ≠ TICK ∧ u ≠ LESS)
    (hmore : ∀ p ∈ more, (p.1 ≠ [] ∧ ∀ u ∈ p.1, isSpace u = true)
      ∧ (p.2 ≠ [] ∧ ∀ u ∈ p.2, isSpace u = false ∧ u ≠ TICK ∧ u ≠ LESS)) :
    filterTextWords (proseBody [] first more []) = more.length + 1
    ∧ filterCodeWords (proseBody [] first more []) = 1
    ∧ readingTime (proseBody [] first more []) = (more.length + 1 + 2 + 199) / 200 := by
  have hl : LESS ∉ proseBody [] first more [] :=
    not_mem_proseBody LESS (by decide) [] first more [] (by simp)
      (fun hm => (hfirst.2 _ hm).2.2 rfl)
      (fun p hp => ⟨(hmore p hp).1.2, fun hm => ((hmore p hp).2.2 _ hm).2.2 rfl⟩) (by simp)
  have ht : TICK ∉ proseBody [] first more [] :=
    not_mem_proseBody TICK (by decide) [] first more [] (by simp)
      (fun hm => (hfirst.2 _ hm).2.1 rfl)
      (fun p hp => ⟨(hmore p hp).1.2, fun hm => ((hmore p hp).2.2 _ hm).2.1 rfl⟩) (by simp)
  have h1 : removeAll tagRe (proseBody [] first more []) = proseBody [] first more [] :=
    removeAllGo_of_no_match _ _ (fun t h => tagRe_of_not_mem _ t hl h)
  have h2 : removeAll fenceRe (proseBody [] first more []) = proseBody [] first more [] :=
    removeAllGo_of_no_match _ _ (fun t h => fenceRe_of_not_mem _ t ht h)
  have h4 : matchAll fenceRe (proseBody [] first more []) = [] :=
    matchAllGo_of_no_match _ _ (fun t h => fenceRe_of_not_mem _ t ht h)
  have h5 : (splitWs (proseBody [] first more [])).length = more.length + 1 := by
    simp only [proseBody, List.nil_append, List.append_nil]
    rw [splitWs_length_word_append first _ (fun u hu => (hfirst.2 u hu).1)]
    exact splitWs_length_proseTail more
      (fun p hp => ⟨(hmore p hp).1, (hmore p hp).2.1, fun u hu => ((hmore p hp).2.2 u hu).1⟩)
  have ha : filterTextWords (proseBody [] first more []) = more.length + 1 := by
    simp only [filterTextWords, h1, h2, h5]
  have hb : filterCodeWords (proseBody [] first more []) = 1 := by
    simp only [filterCodeWords, h4]
    decide
  refine ⟨ha, hb, ?_⟩
  rw [readingTime_eq, ha, hb]

/-! ## A single fence marker -/

theorem removeAllGo_sublist (re : JsString → Option Nat) (k : Nat) (s : JsString) :
    removeAllGo re k s <+ s := by
  induction s generalizing k with
  | nil => simp [removeAllGo]
  | cons c rest ih =>
    cases k with
    | succ j =>
      rw [removeAllGo]
      exact (ih j).cons c
    | zero =>
      rw [removeAllGo]
      cases re (c :: rest) with
      | none => exact (ih 0).cons₂ c
      | some n => exact (ih (n - 1)).cons c

theorem sublist_of_cons_sublist_append (a : Nat) (l pre r : JsString) (ha : a ∉ pre)
    (h : (a :: l) <+ pre ++ r) : (a :: l) <+ r := by
  induction pre with
  | nil => simpa using h
  | cons p ps ih =>
    have hp : a ≠ p := fun e => ha (e ▸ List.mem_cons_self p ps)
    have hps : a ∉ ps := fun hm => ha (List.mem_cons_of_mem p hm)
    rw [List.cons_append] at h
    cases h with
    | cons _ h1 => exact ih hps h1
    | cons₂ _ h1 => exact absurd rfl hp

/-- In a text whose only backticks are the three of one fence marker, no two backticks have a
code unit other than a backtick between them. -/
theorem no_split_ticks (pre post : JsString) (hpre : TICK ∉ pre) (hpost : TICK ∉ post)
    (x : Nat) (hx : x ≠ TICK) : ¬ [TICK, x, TICK] <+ pre ++ fence ++ post := by
  intro h
  rw [List.append_assoc] at h
  have h1 : [TICK, x, TICK] <+ fence ++ post :=
    sublist_of_cons_sublist_append TICK _ pre _ hpre h
  have h2 : [x, TICK] <+ fence ++ post := (List.sublist_cons_self TICK [x, TICK]).trans h1
  have hxf : x ∉ fence := by simpa [fence] using hx
  have h3 : [x, TICK] <+ post := sublist_of_cons_sublist_append x _ fence _ hxf h2
  exact hpost (h3.subset (by simp))

theorem count_tick_single_fence (pre post : JsString) (hpre : TICK ∉ pre)
    (hpost : TICK ∉ post) : (pre ++ fence ++ post).count TICK = 3 := by
  simp [List.count_append, List.count_eq_zero_of_not_mem hpre,
    List.count_eq_zero_of_not_mem hpost, fence]

theorem count_tick_of_findFence (r : JsString) (j : Nat) (h : findFence r = some j) :
    3 ≤ r.count TICK := by
  induction r generalizing j with
  | nil => simp [findFence] at h
  | cons c rest ih =>
    rw [findFence] at h
    by_cases hp : fence.isPrefixOf (c :: rest) = true
    · obtain ⟨t, ht⟩ := List.isPrefixOf_iff_prefix.mp hp
      rw [← ht]
      simp [fence, List.count_cons]
    · simp only [hp] at h
      cases hf : findFence rest with
      | none => simp [hf] at h
      | some i =>
        have := ih i hf
        rw [List.count_cons]
        omega

theorem count_tick_of_fenceRe (t : JsString) (n : Nat) (h : fenceRe t = some n) :
    6 ≤ t.count TICK := by
  unfold fenceRe at h
  by_cases hp : fence.isPrefixOf t = true
  · simp only [hp, if_true] at h
    obtain ⟨r, hr⟩ := List.isPrefixOf_iff_prefix.mp hp
    cases hf : findFence (t.drop 3) with
    | none => simp [hf] at h
    | some i =>
      have h3 := count_tick_of_findFence _ i hf
      rw [← hr] at h3 ⊢
      simp [fence, List.count_cons] at h3 ⊢
      omega
  · simp [hp] at h

theorem drop_length_takeWhile (p : Nat → Bool) (l : JsString) :
    l.drop (l.takeWhile p).length = l.dropWhile p := by
  induction l with
  | nil => rfl
  | cons a t ih => by_cases h : p a = true <;> simp [List.takeWhile, List.dropWhile, h, ih]

theorem split_ticks_of_inlineRe (t : JsString) (n : Nat) (h : inlineRe t = some n) :
    ∃ x, x ≠ TICK ∧ [TICK, x, TICK] <+ t := by
  cases t with
  | nil => simp [inlineRe] at h
  | cons c rest =>
    simp only [inlineRe] at h
    split at h
    · rename_i hcond
      obtain ⟨hc, hlen, hhead⟩ := hcond
      have hsplit : rest = rest.takeWhile (fun u => u != TICK)
          ++ rest.drop (rest.takeWhile (fun u => u != TICK)).length := by
        rw [drop_length_takeWhile, List.takeWhile_append_dropWhile]
      cases hrun : rest.takeWhile (fun u => u != TICK) with
      | nil => simp [hrun] at hlen
      | cons x run =>
        have hx : x ≠ TICK := by
          have hmem : x ∈ rest.takeWhile (fun u => u != TICK) := by simp [hrun]
          simpa using List.mem_takeWhile_imp hmem
        cases hd : rest.drop (rest.takeWhile (fun u => u != TICK)).length with
        | nil => simp [hd] at hhead
        | cons y tail =>
          have hy : y = TICK := by simpa [hd] using hhead
          have hrest : rest = (x :: run) ++ (TICK :: tail) := by
            rw [hd, hrun, hy] at hsplit
            exact hsplit
          refine ⟨x, hx, ?_⟩
          rw [hrest, hc]
          refine List.Sublist.cons₂ _ (List.Sublist.cons₂ _ ?_)
          exact (List.Sublist.cons₂ TICK (List.nil_sublist tail)).trans
            (List.sublist_append_right run (TICK :: tail))
    · simp at h

/-- Within a text whose only backticks are the three of one fence marker, and within whatever
remains of it once parts are removed, neither code expression matches anywhere. -/
theorem no_code_match_single_fence (pre post s t : JsString) (hpre : TICK ∉ pre)
    (hpost : TICK ∉ post) (hs : s <+ pre ++ fence ++ post) (ht : t <:+ s) :
    fenceRe t = none ∧ inlineRe t = none := by
  have hsub : t <+ pre ++ fence ++ post := ht.sublist.trans hs
  constructor
  · cases hf : fenceRe t with
    | none => rfl
    | some n =>
      have h6 := count_tick_of_fenceRe t n hf
      have h3 := hsub.count_le TICK
      rw [count_tick_single_fence pre post hpre hpost] at h3
      omega
  · cases hi : inlineRe t with
    | none => rfl
    | some n =>
      obtain ⟨x, hx, hsplit⟩ := split_ticks_of_inlineRe t n hi
      exact absurd (hsplit.trans hsub) (no_split_ticks pre post hpre hpost x hx)

theorem counts_of_white (body : JsString) (h : ∀ u ∈ body, isSpace u = true) :
    textWords body = 0 ∧ codeWords body = 0 := by
  have hl : LESS ∉ body := fun hm => absurd (h _ hm) (by decide)
  have ht : TICK ∉ body := fun hm => absurd (h _ hm) (by decide)
  obtain ⟨h1, h2⟩ := counts_of_plain body hl ht
  have h3 : tokenCount body = 0 := tokenCountFrom_white true body h
  exact ⟨by rw [h1, h3], h2⟩

/-! ## The claims on the reading time -/

/-- C1: for every body, `calculateReadingTime(body)` is an integer that is at least 1. -/
theorem calculateReadingTime_ge_one (body : JsString) : 1 ≤ calculateReadingTime body := by
  unfold calculateReadingTime
  exact le_max_left _ _

/-- C2: for every content, the filter `readingTime` of `.eleventy.js` returns an integer that is
at least 1, although it has no minimum clamp: `split` never yields an empty list, so the two
word counts of the filter are at least 1 each. -/
theorem readingTime_ge_one (content : JsString) :
    1 ≤ readingTime content ∧ 1 ≤ filterTextWords content ∧ 1 ≤ filterCodeWords content := by
  have ht : 1 ≤ filterTextWords content := splitWs_length_pos _
  have hc : 1 ≤ filterCodeWords content := splitWs_length_pos _
  refine ⟨?_, ht, hc⟩
  rw [readingTime_eq]
  omega

/-! ## The scans, match by match -/

theorem removeAllGo_skip (re : JsString → Option Nat) (k : Nat) (s : JsString) :
    removeAllGo re k s = removeAllGo re 0 (s.drop k) := by
  induction s generalizing k with
  | nil => simp [removeAllGo]
  | cons c rest ih =>
    cases k with
    | zero => rfl
    | succ j => rw [removeAllGo, ih j, List.drop_succ_cons]

theorem matchAllGo_skip (re : JsString → Option Nat) (k : Nat) (s : JsString) :
    matchAllGo re k s = matchAllGo re 0 (s.drop k) := by
  induction s generalizing k with
  | nil => simp [matchAllGo]
  | cons c rest ih =>
    cases k with
    | zero => rfl
    | succ j => rw [matchAllGo, ih j, List.drop_succ_cons]

theorem removeAll_of_match (re : JsString → Option Nat) (s : JsString) (n : Nat)
    (h : re s = some (n + 1)) : removeAll re s = removeAll re (s.drop (n + 1)) := by
  cases s with
  | nil => rfl
  | cons c rest =>
    simp only [removeAll, removeAllGo, h, List.drop_succ_cons, Nat.add_sub_cancel]
    exact removeAllGo_skip re n rest

theorem matchAll_of_match (re : JsString → Option Nat) (c : Nat) (rest : JsString) (n : Nat)
    (h : re (c :: rest) = some (n + 1)) :
    matchAll re (c :: rest)
      = (c :: rest).take (n + 1) :: matchAll re ((c :: rest).drop (n + 1)) := by
  simp only [matchAll, matchAllGo, h, List.drop_succ_cons, Nat.add_sub_cancel]
  rw [matchAllGo_skip re n rest]

theorem removeAll_of_no_match (re : JsString → Option Nat) (c : Nat) (rest : JsString)
    (h : re (c :: rest) = none) : removeAll re (c :: rest) = c :: removeAll re rest := by
  simp only [removeAll, removeAllGo, h]

theorem matchAll_of_no_match (re : JsString → Option Nat) (c : Nat) (rest : JsString)
    (h : re (c :: rest) = none) : matchAll re (c :: rest) = matchAll re rest := by
  simp only [matchAll, matchAllGo, h]

theorem takeWhile_ne_of_not_mem (x : Nat) (l : JsString) (h : x ∉ l) :
    l.takeWhile (fun u => u != x) = l := by
  rw [List.takeWhile_eq_self_iff]
  intro a ha
  have hne : a ≠ x := fun e => h (e ▸ ha)
  simpa using hne

theorem takeWhile_ne_append (x : Nat) (l rest : JsString) (h : x ∉ l) :
    (l ++ x :: rest).takeWhile (fun u => u != x) = l := by
  have hl : ∀ a ∈ l, (fun u => u != x) a = true := by
    intro a ha
    have hne : a ≠ x := fun e => h (e ▸ ha)
    simpa using hne
  rw [List.takeWhile_append_of_pos hl]
  simp [List.takeWhile]

/-! ## The tag scan reads the text tag by tag -/

theorem tagRe_of_ne (c : Nat) (rest : JsString) (h : c ≠ LESS) : tagRe (c :: rest) = none := by
  simp [tagRe, h]

theorem tagRe_of_closed (inside rest : JsString) (h : GREATER ∉ inside) :
    tagRe (LESS :: (inside ++ GREATER :: rest)) = some (inside.length + 1 + 1) := by
  simp [tagRe, takeWhile_ne_append GREATER inside rest h]

theorem tagRe_of_open (t inside : JsString) (h : GREATER ∉ inside) (ht : t <:+ LESS :: inside) :
    tagRe t = none := by
  cases t with
  | nil => rfl
  | cons c rest =>
    have hrest : GREATER ∉ rest := by
      intro hm
      have hmem : GREATER ∈ LESS :: inside := ht.subset (List.mem_cons_of_mem c hm)
      rcases List.mem_cons.1 hmem with e | e
      · exact absurd e (by decide)
      · exact h e
    have hd : (rest.drop (rest.takeWhile (fun u => u != GREATER)).length).head? ≠ some GREATER := by
      rw [takeWhile_ne_of_not_mem GREATER rest hrest]
      simp
    simp only [tagRe]
    exact if_neg (fun hh => hd hh.2)

theorem stripTagsFrom_eq (s : JsString) :
    stripTagsFrom none s = removeAll tagRe s
    ∧ ∀ inside : JsString, GREATER ∉ inside →
        stripTagsFrom (some inside) s = removeAll tagRe (LESS :: (inside ++ s)) := by
  induction s with
  | nil =>
    refine ⟨rfl, fun inside h => ?_⟩
    rw [List.append_nil, stripTagsFrom]
    exact (removeAllGo_of_no_match tagRe _ (fun t ht => tagRe_of_open t inside h ht)).symm
  | cons c rest ih =>
    refine ⟨?_, fun inside h => ?_⟩
    · rw [stripTagsFrom]
      by_cases hc : c = LESS
      · rw [if_pos hc, hc, ih.2 [] (List.not_mem_nil _), List.nil_append]
      · rw [if_neg hc, ih.1, removeAll_of_no_match tagRe c rest (tagRe_of_ne c rest hc)]
    · rw [stripTagsFrom]
      by_cases hc : c = GREATER
      · rw [if_pos hc, hc, ih.1, removeAll_of_match tagRe _ _ (tagRe_of_closed inside rest h)]
        rw [List.drop_succ_cons, List.drop_append]
        rfl
      · rw [if_neg hc]
        have h2 : GREATER ∉ inside ++ [c] := by
          intro hm
          rcases List.mem_append.1 hm with e | e
          · exact h e
          · exact hc (List.mem_singleton.1 e).symm
        rw [ih.2 (inside ++ [c]) h2, List.append_assoc, List.singleton_append]

theorem withoutTags_eq (s : JsString) : withoutTags s = removeAll tagRe s :=
  (stripTagsFrom_eq s).1

/-! ## The inline scan reads the text region by region -/

theorem inlineRe_of_ne (c : Nat) (rest : JsString) (h : c ≠ TICK) :
    inlineRe (c :: rest) = none := by
  simp [inlineRe, h]

theorem inlineRe_of_two_ticks (rest : JsString) : inlineRe (TICK :: TICK :: rest) = none := by
  simp [inlineRe, List.takeWhile]

theorem inlineRe_of_closed (inside rest : JsString) (h : TICK ∉ inside) (hne : inside ≠ []) :
    inlineRe (TICK :: (inside ++ TICK :: rest)) = some (inside.length + 1 + 1) := by
  have hpos : 0 < inside.length := List.length_pos.2 hne
  simp [inlineRe, takeWhile_ne_append TICK inside rest h, hpos]

theorem inlineRe_of_open (t inside : JsString) (h : TICK ∉ inside) (ht : t <:+ TICK :: inside) :
    inlineRe t = none := by
  rcases List.suffix_cons_iff.1 ht with e | e
  · subst e
    have hd : (inside.drop (inside.takeWhile (fun u => u != TICK)).length).head? ≠ some TICK := by
      rw [takeWhile_ne_of_not_mem TICK inside h]
      simp
    simp only [inlineRe]
    exact if_neg (fun hh => hd hh.2.2)
  · exact inlineRe_of_not_mem inside t h e

theorem not_mem_concat (x c : Nat) (inside : JsString) (h : x ∉ inside) (hc : c ≠ x) :
    x ∉ inside ++ [c] := by
  intro hm
  rcases List.mem_append.1 hm with e | e
  · exact h e
  · exact hc (List.mem_singleton.1 e).symm

theorem withoutInlineFrom_eq (s : JsString) :
    withoutInlineFrom none s = removeAll inlineRe s
    ∧ ∀ inside : JsString, TICK ∉ inside →
        withoutInlineFrom (some inside) s = removeAll inlineRe (TICK :: (inside ++ s)) := by
  induction s with
  | nil =>
    refine ⟨rfl, fun inside h => ?_⟩
    rw [List.append_nil, withoutInlineFrom]
    exact (removeAllGo_of_no_match inlineRe _ (fun t ht => inlineRe_of_open t inside h ht)).symm
  | cons c rest ih =>
    refine ⟨?_, fun inside h => ?_⟩
    · rw [withoutInlineFrom]
      by_cases hc : c = TICK
      · rw [if_pos hc, hc, ih.2 [] (List.not_mem_nil _), List.nil_append]
      · rw [if_neg hc, ih.1, removeAll_of_no_match inlineRe c rest (inlineRe_of_ne c rest hc)]
    · rw [withoutInlineFrom]
      by_cases hc : c = TICK
      · rw [if_pos hc, hc]
        by_cases hi : inside = []
        · rw [if_pos hi, hi, List.nil_append, ih.2 [] (List.not_mem_nil _), List.nil_append,
            removeAll_of_no_match inlineRe TICK (TICK :: rest) (inlineRe_of_two_ticks rest)]
        · rw [if_neg hi, ih.1,
            removeAll_of_match inlineRe _ _ (inlineRe_of_closed inside rest h hi),
            List.drop_succ_cons, List.drop_append]
          rfl
      · rw [if_neg hc, ih.2 (inside ++ [c]) (not_mem_concat TICK c inside h hc),
          List.append_assoc, List.singleton_append]

theorem withoutInline_eq (s : JsString) : withoutInline s = removeAll inlineRe s :=
  (withoutInlineFrom_eq s).1

theorem inlineRegionsFrom_eq (s : JsString) :
    inlineRegionsFrom none s = matchAll inlineRe s
    ∧ ∀ inside : JsString, TICK ∉ inside →
        inlineRegionsFrom (some inside) s = matchAll inlineRe (TICK :: (inside ++ s)) := by
  induction s with
  | nil =>
    refine ⟨rfl, fun inside h => ?_⟩
    rw [List.append_nil, inlineRegionsFrom]
    exact (matchAllGo_of_no_match inlineRe _ (fun t ht => inlineRe_of_open t inside h ht)).symm
  | cons c rest ih =>
    refine ⟨?_, fun inside h => ?_⟩
    · rw [inlineRegionsFrom]
      by_cases hc : c = TICK
      · rw [if_pos hc, hc, ih.2 [] (List.not_mem_nil _), List.nil_append]
      · rw [if_neg hc, ih.1, matchAll_of_no_match inlineRe c rest (inlineRe_of_ne c rest hc)]
    · rw [inlineRegionsFrom]
      by_cases hc : c = TICK
      · rw [if_pos hc, hc]
        by_cases hi : inside = []
        · rw [if_pos hi, hi, List.nil_append, ih.2 [] (List.not_mem_nil _), List.nil_append,
            matchAll_of_no_match inlineRe TICK (TICK :: rest) (inlineRe_of_two_ticks rest)]
        · rw [if_neg hi, ih.1,
            matchAll_of_match inlineRe _ _ _ (inlineRe_of_closed inside rest h hi),
            List.drop_succ_cons, List.drop_append, List.take_succ_cons, List.take_append]
          rfl
      · rw [if_neg hc, ih.2 (inside ++ [c]) (not_mem_concat TICK c inside h hc),
          List.append_assoc, List.singleton_append]

theorem inlineRegions_eq (s : JsString) : inlineRegions s = matchAll inlineRe s :=
  (inlineRegionsFrom_eq s).1

/-! ## The fence scan reads the text region by region -/

theorem infix_of_findFence (s : JsString) (j : Nat) (h : findFence s = some j) :
    fence <:+: s := by
  induction s generalizing j with
  | nil => simp [findFence] at h
  | cons c rest ih =>
    rw [findFence] at h
    by_cases hp : fence.isPrefixOf (c :: rest) = true
    · exact (List.isPrefixOf_iff_prefix.1 hp).isInfix
    · rw [if_neg hp] at h
      cases hr : findFence rest with
      | none => simp [hr] at h
      | some i => exact (ih i hr).trans (List.suffix_cons c rest).isInfix

theorem findFence_of_first (pre rest : JsString) (h : ¬ fence <:+: pre ++ [TICK, TICK]) :
    findFence (pre ++ fence ++ rest) = some pre.length := by
  induction pre with
  | nil => simp [findFence, fence, List.isPrefixOf]
  | cons a pre ih =>
    have hp : ¬ fence.isPrefixOf (a :: pre ++ fence ++ rest) = true := by
      intro hp
      have h1 : fence <+: a :: pre ++ fence ++ rest := List.isPrefixOf_iff_prefix.1 hp
      have h2 : a :: pre ++ [TICK, TICK] <+: a :: pre ++ fence ++ rest :=
        ⟨TICK :: rest, by simp [fence]⟩
      have h3 : fence <+: a :: pre ++ [TICK, TICK] :=
        List.prefix_of_prefix_length_le h1 h2 (by simp [fence])
      exact h h3.isInfix
    have hi : ¬ fence <:+: pre ++ [TICK, TICK] :=
      fun hh => h (hh.trans (List.suffix_cons a _).isInfix)
    have e : a :: pre ++ fence ++ rest = a :: (pre ++ fence ++ rest) := rfl
    rw [e, findFence, ← e, if_neg hp, ih hi]
    rfl

theorem fenceRe_of_open (t content : JsString) (h : ¬ fence <:+: content)
    (ht : t <:+ fence ++ content) : fenceRe t = none := by
  cases hre : fenceRe t with
  | none => rfl
  | some n =>
    exfalso
    rw [fenceRe] at hre
    by_cases hp : fence.isPrefixOf t = true
    · rw [if_pos hp] at hre
      cases hf : findFence (t.drop 3) with
      | none => simp [hf] at hre
      | some j =>
        have h1 : fence <:+: t.drop 3 := infix_of_findFence _ j hf
        have h2 : t.drop 3 <:+ fence ++ content := (List.drop_suffix 3 t).trans ht
        have h3 : content <:+ fence ++ content := List.suffix_append fence content
        have hl : t.length ≤ (fence ++ content).length := ht.length_le
        have h4 : t.drop 3 <:+ content :=
          List.suffix_of_suffix_length_le h2 h3 (by
            simp only [List.length_drop, List.length_append, fence, List.length_cons,
              List.length_nil] at hl ⊢
            omega)
        exact h (h1.trans h4.isInfix)
    · rw [if_neg hp] at hre
      exact Option.noConfusion hre

theorem fenceRe_of_closed (pre rest : JsString) (h : ¬ fence <:+: pre ++ [TICK, TICK]) :
    fenceRe (fence ++ (pre ++ fence ++ rest)) = some (pre.length + 5 + 1) := by
  have hp : fence.isPrefixOf (fence ++ (pre ++ fence ++ rest)) = true :=
    List.isPrefixOf_iff_prefix.2 (List.prefix_append _ _)
  have hd : (fence ++ (pre ++ fence ++ rest)).drop 3 = pre ++ fence ++ rest := rfl
  rw [fenceRe, if_pos hp, hd, findFence_of_first pre rest h]
  rfl

theorem split_of_fence_suffix (content : JsString) (c : Nat)
    (hs : fence <:+ content ++ [c]) : ∃ pre, content = pre ++ [TICK, TICK] ∧ c = TICK := by
  obtain ⟨pre, hpre⟩ := hs
  have e : (pre ++ [TICK, TICK]) ++ [TICK] = content ++ [c] := by
    rw [← hpre]
    simp [fence]
  have h2 := List.append_inj' e rfl
  exact ⟨pre, h2.1.symm, by simpa using h2.2.symm⟩

theorem removeAll_fenceRe_ticks (k c : Nat) (rest : JsString) (hk : k ≤ 2) (hc : c ≠ TICK) :
    removeAll fenceRe (List.replicate k TICK ++ c :: rest)
      = List.replicate k TICK ++ c :: removeAll fenceRe rest := by
  have hc2 : ¬ (TICK = c) := fun e => hc e.symm
  interval_cases k <;>
    simp [removeAll, removeAllGo, fenceRe, fence, List.isPrefixOf, hc2, List.replicate]

theorem matchAll_fenceRe_ticks (k c : Nat) (rest : JsString) (hk : k ≤ 2) (hc : c ≠ TICK) :
    matchAll fenceRe (List.replicate k TICK ++ c :: rest) = matchAll fenceRe rest := by
  have hc2 : ¬ (TICK = c) := fun e => hc e.symm
  interval_cases k <;>
    simp [matchAll, matchAllGo, fenceRe, fence, List.isPrefixOf, hc2, List.replicate]

theorem not_infix_concat (content : JsString) (c : Nat) (h : ¬ fence <:+: content)
    (hs : ¬ fence.isSuffixOf (content ++ [c]) = true) : ¬ fence <:+: content ++ [c] := by
  intro hi
  rcases List.infix_concat_iff.1 hi with e | e
  · exact hs (List.isSuffixOf_iff_suffix.2 e)
  · exact h e

theorem not_infix_nil : ¬ fence <:+: ([] : JsString) := by
  intro h
  have := h.length_le
  simp [fence] at this

theorem withoutFencedFrom_eq (s : JsString) :
    (∀ k, k ≤ 2 → withoutFencedFrom (FenceState.outside k) s
        = removeAll fenceRe (List.replicate k TICK ++ s))
    ∧ ∀ content : JsString, ¬ fence <:+: content →
        withoutFencedFrom (FenceState.inside content) s
          = removeAll fenceRe (fence ++ (content ++ s)) := by
  induction s with
  | nil =>
    refine ⟨fun k hk => ?_, fun content h => ?_⟩
    · interval_cases k <;> rfl
    · rw [List.append_nil, withoutFencedFrom]
      exact (removeAllGo_of_no_match fenceRe _ (fun t ht => fenceRe_of_open t content h ht)).symm
  | cons c rest ih =>
    have ih0 : withoutFencedFrom (FenceState.outside 0) rest = removeAll fenceRe rest :=
      ih.1 0 (by omega)
    refine ⟨fun k hk => ?_, fun content h => ?_⟩
    · rw [withoutFencedFrom]
      by_cases hc : c = TICK
      · rw [if_pos hc, hc]
        by_cases h2 : k = 2
        · rw [if_pos h2, h2, ih.2 [] not_infix_nil]
          rfl
        · rw [if_neg h2, ih.1 (k + 1) (by omega), List.replicate_succ', List.append_assoc]
          rfl
      · rw [if_neg hc, ih0, removeAll_fenceRe_ticks k c rest hk hc]
    · rw [withoutFencedFrom]
      by_cases hs : fence.isSuffixOf (content ++ [c]) = true
      · rw [if_pos hs, ih0]
        obtain ⟨pre, hcont, hcc⟩ := split_of_fence_suffix content c (List.isSuffixOf_iff_suffix.1 hs)
        subst hcont hcc
        have e : pre ++ [TICK, TICK] ++ TICK :: rest = pre ++ fence ++ rest := by simp [fence]
        rw [e, removeAll_of_match fenceRe _ _ (fenceRe_of_closed pre rest h)]
        have hd : (fence ++ (pre ++ fence ++ rest)).drop (pre.length + 5 + 1) = rest := by
          have e2 : fence ++ (pre ++ fence ++ rest) = (fence ++ pre ++ fence) ++ rest := by
            simp [List.append_assoc]
          rw [e2]
          exact List.drop_left' (by simp [fence])
        rw [hd]
      · rw [if_neg hs, ih.2 (content ++ [c]) (not_infix_concat content c h hs),
          List.append_assoc, List.singleton_append]

theorem withoutFenced_eq (s : JsString) : withoutFenced s = removeAll fenceRe s :=
  (withoutFencedFrom_eq s).1 0 (by omega)

theorem fencedRegionsFrom_eq (s : JsString) :
    (∀ k, k ≤ 2 → fencedRegionsFrom (FenceState.outside k) s
        = matchAll fenceRe (List.replicate k TICK ++ s))
    ∧ ∀ content : JsString, ¬ fence <:+: content →
        fencedRegionsFrom (FenceState.inside content) s
          = matchAll fenceRe (fence ++ (content ++ s)) := by
  induction s with
  | nil =>
    refine ⟨fun k hk => ?_, fun content h => ?_⟩
    · interval_cases k <;> rfl
    · rw [List.append_nil, fencedRegionsFrom]
      exact (matchAllGo_of_no_match fenceRe _ (fun t ht => fenceRe_of_open t content h ht)).symm
  | cons c rest ih =>
    have ih0 : fencedRegionsFrom (FenceState.outside 0) rest = matchAll fenceRe rest :=
      ih.1 0 (by omega)
    refine ⟨fun k hk => ?_, fun content h => ?_⟩
    · rw [fencedRegionsFrom]
      by_cases hc : c = TICK
      · rw [if_pos hc, hc]
        by_cases h2 : k = 2
        · rw [if_pos h2, h2, ih.2 [] not_infix_nil]
          rfl
        · rw [if_neg h2, ih.1 (k + 1) (by omega), List.replicate_succ', List.append_assoc]
          rfl
      · rw [if_neg hc, ih0, matchAll_fenceRe_ticks k c rest hk hc]
    · rw [fencedRegionsFrom]
      by_cases hs : fence.isSuffixOf (content ++ [c]) = true
      · rw [if_pos hs, ih0]
        obtain ⟨pre, hcont, hcc⟩ := split_of_fence_suffix content c (List.isSuffixOf_iff_suffix.1 hs)
        subst hcont hcc
        have e : pre ++ [TICK, TICK] ++ TICK :: rest = pre ++ fence ++ rest := by simp [fence]
        have e3 : fence ++ (pre ++ fence ++ rest) = TICK :: (TICK :: TICK :: (pre ++ fence ++ rest)) :=
          rfl
        have e2 : fence ++ (pre ++ fence ++ rest) = (fence ++ pre ++ fence) ++ rest := by
          simp [List.append_assoc]
        have hd : (fence ++ (pre ++ fence ++ rest)).drop (pre.length + 5 + 1) = rest := by
          rw [e2]
          exact List.drop_left' (by simp [fence])
        have htk : (fence ++ (pre ++ fence ++ rest)).take (pre.length + 5 + 1)
            = fence ++ (pre ++ [TICK, TICK] ++ [TICK]) := by
          rw [e2]
          rw [List.take_left' (by simp [fence])]
          simp [fence]
        have hm := matchAll_of_match fenceRe TICK (TICK :: TICK :: (pre ++ fence ++ rest))
          (pre.length + 5) (by rw [← e3]; exact fenceRe_of_closed pre rest h)
        rw [← e3, htk, hd] at hm
        rw [e, hm]
      · rw [if_neg hs, ih.2 (content ++ [c]) (not_infix_concat content c h hs),
          List.append_assoc, List.singleton_append]

theorem fencedRegions_eq (s : JsString) : fencedRegions s = matchAll fenceRe s :=
  (fencedRegionsFrom_eq s).1 0 (by omega)

/-! ## Counting the words of the code regions -/

theorem tokenCountFrom_space_append (b : Bool) (a s : JsString) :
    tokenCountFrom b (a ++ SPACE :: s) = tokenCountFrom b a + tokenCountFrom true s := by
  induction a generalizing b with
  | nil =>
    have hs : isSpace SPACE = true := by decide
    simp [tokenCountFrom, hs]
  | cons c rest ih =>
    rw [List.cons_append, tokenCountFrom, tokenCountFrom, ih]
    omega

theorem tokenCount_joinSpace (pieces : List JsString) :
    tokenCount (joinSpace pieces) = (pieces.map tokenCount).sum := by
  induction pieces with
  | nil => rfl
  | cons m ms ih =>
    cases ms with
    | nil => simp [joinSpace, List.intercalate, List.intersperse]
    | cons m2 ms =>
      have h : joinSpace (m :: m2 :: ms) = m ++ SPACE :: joinSpace (m2 :: ms) := by
        simp [joinSpace, List.intercalate, List.intersperse]
      rw [h, tokenCount, tokenCountFrom_space_append, List.map_cons, List.sum_cons, ← ih]
      rfl

theorem textWords_eq_specTextWords (body : JsString) : textWords body = specTextWords body := by
  simp only [textWords, specTextWords, wordCount_eq_tokenCount, withoutTags_eq,
    withoutFenced_eq, withoutInline_eq]

theorem codeWords_eq_sum (body : JsString) :
    codeWords body = ((fencedRegions body).map tokenCount).sum
      + ((inlineRegions body).map tokenCount).sum := by
  simp only [codeWords, wordCount_eq_tokenCount, fencedRegions_eq, inlineRegions_eq]
  rw [List.append_assoc, List.singleton_append, tokenCount, tokenCountFrom_space_append]
  exact congrArg₂ (· + ·) (tokenCount_joinSpace _) (tokenCount_joinSpace _)

theorem withoutFenced_of_no_fence (body : JsString) (h : ¬ fence <:+: body) :
    withoutFenced body = body := by
  rw [withoutFenced_eq]
  refine removeAllGo_of_no_match fenceRe body (fun t ht => ?_)
  cases hre : fenceRe t with
  | none => rfl
  | some n =>
    exfalso
    rw [fenceRe] at hre
    by_cases hp : fence.isPrefixOf t = true
    · exact h ((List.isPrefixOf_iff_prefix.1 hp).isInfix.trans ht.isInfix)
    · rw [if_neg hp] at hre
      exact Option.noConfusion hre

theorem specMinutes_eq (body : JsString) :
    specMinutes body = max 1 ((specTextWords body + 2 * specCodeWords body + 199) / 200) := by
  unfold specMinutes
  simp only [ceil_minutes]

set_option maxRecDepth 1000000 in
/-- C3 fails on the code: for the body of 101 inline regions that stand side by side, each the
letter `a` between two backticks, the concatenated code matches are one token without white
space, so the formula of the claim gives `max(1, ceil(0 / 200 + 1 / 100)) = 1`, while
`calculateReadingTime` joins the matches with spaces, counts 101 code words and returns 2.  The
body has no fenced region and no text outside its inline regions. -/
theorem calculateReadingTime_ne_specMinutes :
    calculateReadingTime inlineRun = 2 ∧ specMinutes inlineRun = 1
    ∧ codeWords inlineRun = 101 ∧ specCodeWords inlineRun = 1
    ∧ textWords inlineRun = 0 ∧ specTextWords inlineRun = 0
    ∧ fencedRegions inlineRun = []
    ∧ (codeRegions inlineRun).flatten = inlineRun := by
  rw [calculateReadingTime_eq, specMinutes_eq]
  decide

/-- C3, amended: for every body whose inline regions are the inline regions of what stands
outside its fenced regions, `calculateReadingTime(body)` is `max(1, ceil(textWords / 200 +
codeWords / 100))` in exact rational arithmetic, which is `max(1, ceil((textWords + 2 *
codeWords) / 200))`, where `codeWords` is the sum, over the fenced and the inline regions of the
body, of the number of non-empty white-space-delimited tokens of the region, every region
counted on its own, and `textWords` is the number of non-empty white-space-delimited tokens of
the body after removing markup tags, then fenced regions, then inline regions.  The two counts
are the ones the code computes. -/
theorem calculateReadingTime_eq_regionMinutes (body : JsString)
    (h : inlineRegions body = inlineRegions (withoutFenced body)) :
    calculateReadingTime body = regionMinutes body
    ∧ regionMinutes body
        = max 1 ⌈((specTextWords body + 2 * regionCodeWords body : ℕ) : ℚ) / 200⌉₊
    ∧ textWords body = specTextWords body
    ∧ codeWords body = regionCodeWords body := by
  have ht : textWords body = specTextWords body := textWords_eq_specTextWords body
  have hc : codeWords body = regionCodeWords body := by
    rw [codeWords_eq_sum, regionCodeWords, codeRegions, List.map_append, List.sum_append, h]
  refine ⟨?_, ?_, ht, hc⟩
  · simp only [calculateReadingTime, regionMinutes, ht, hc]
  · simp only [regionMinutes, ceil_minutes, ceil_div_200]

/-- Witness for C3, amended: the body `mixedBody` has a tag pair, prose, three inline regions
and a fenced region, and its inline regions are those of what stands outside the fenced
region. -/
theorem calculateReadingTime_eq_regionMinutes_witness :
    inlineRegions mixedBody = inlineRegions (withoutFenced mixedBody)
    ∧ calculateReadingTime mixedBody = regionMinutes mixedBody
    ∧ regionMinutes mixedBody
        = max 1 ⌈((specTextWords mixedBody + 2 * regionCodeWords mixedBody : ℕ) : ℚ) / 200⌉₊
    ∧ textWords mixedBody = specTextWords mixedBody
    ∧ codeWords mixedBody = regionCodeWords mixedBody :=
  ⟨by decide, calculateReadingTime_eq_regionMinutes mixedBody (by decide)⟩

/-- C4: for every body made of `N` white-space-separated prose words (no backtick, no `<`),
`calculateReadingTime(body)` is `ceil(N / 200)`, floored at 1: so it is for the body of the
`N = more.length + 1` words `first` and `more`, and for the body `lead` of no word at all; a
body of 1000 prose words yields 5. -/
theorem calculateReadingTime_prose (lead first : JsString)
    (more : List (JsString × JsString)) (trail : JsString)
    (hlead : ∀ u ∈ lead, isSpace u = true)
    (hfirst : first ≠ [] ∧ ∀ u ∈ first, isSpace u = false ∧ u ≠ TICK ∧ u ≠ LESS)
    (hmore : ∀ p ∈ more, (p.1 ≠ [] ∧ ∀ u ∈ p.1, isSpace u = true)
      ∧ (p.2 ≠ [] ∧ ∀ u ∈ p.2, isSpace u = false ∧ u ≠ TICK ∧ u ≠ LESS))
    (htrail : ∀ u ∈ trail, isSpace u = true) :
    calculateReadingTime (proseBody lead first more trail)
        = max 1 ⌈((more.length + 1 : ℕ) : ℚ) / 200⌉₊
    ∧ calculateReadingTime lead = max 1 ⌈((0 : ℕ) : ℚ) / 200⌉₊
    ∧ calculateReadingTime (joinSpace (List.replicate 1000 (js "word"))) = 5 := by
  refine ⟨?_, ?_, ?_⟩
  · rw [ceil_div_200]
    exact calculateReadingTime_proseBody lead first more trail hlead hfirst hmore htrail
  · obtain ⟨h1, h2⟩ := counts_of_white lead hlead
    rw [calculateReadingTime_eq, h1, h2, ceil_div_200]
  · rw [joinSpace_replicate_succ (js "word") 999,
      calculateReadingTime_proseBody [] (js "word") _ [] (by simp) (by decide)
        (fun p hp => by rw [List.eq_of_mem_replicate hp]; decide) (by simp),
      List.length_replicate]
    decide

/-- Witness of C4: the body `"  hello world\nagain\n"` has three prose words. -/
theorem calculateReadingTime_prose_witness :
    calculateReadingTime
        (proseBody (js "  ") (js "hello") [(js " ", js "world"), (js "\n", js "again")]
          (js "\n"))
        = max 1 ⌈((2 + 1 : ℕ) : ℚ) / 200⌉₊
    ∧ calculateReadingTime (js "  ") = max 1 ⌈((0 : ℕ) : ℚ) / 200⌉₊
    ∧ calculateReadingTime (joinSpace (List.replicate 1000 (js "word"))) = 5 :=
  calculateReadingTime_prose (js "  ") (js "hello")
    [(js " ", js "world"), (js "\n", js "again")] (js "\n")
    (by decide) (by decide) (by decide) (by decide)

/-- C7: for every body that consists of white space only (the empty body included),
`calculateReadingTime` counts no text word and no code word and returns 1. -/
theorem calculateReadingTime_white (body : JsString) (h : ∀ u ∈ body, isSpace u = true) :
    textWords body = 0 ∧ codeWords body = 0 ∧ calculateReadingTime body = 1 := by
  obtain ⟨h1, h2⟩ := counts_of_white body h
  refine ⟨h1, h2, ?_⟩
  rw [calculateReadingTime_eq, h1, h2]
  rfl

/-- Witness of C7: the body made of a space, a line feed, a tab and a no-break space. -/
theorem calculateReadingTime_white_witness :
    (∀ u ∈ [32, 10, 9, 160], isSpace u = true)
    ∧ textWords [32, 10, 9, 160] = 0 ∧ codeWords [32, 10, 9, 160] = 0
    ∧ calculateReadingTime [32, 10, 9, 160] = 1 :=
  ⟨by decide, calculateReadingTime_white [32, 10, 9, 160] (by decide)⟩

/-- C8: of two bodies with the same number of prose words, the one with at least as many code
words has at least as large an estimate. -/
theorem calculateReadingTime_mono_code (b1 b2 : JsString)
    (htext : textWords b1 = textWords b2) (hcode : codeWords b1 ≤ codeWords b2) :
    calculateReadingTime b1 ≤ calculateReadingTime b2 := by
  rw [calculateReadingTime_eq, calculateReadingTime_eq, htext]
  have h : (textWords b2 + 2 * codeWords b1 + 199) / 200
      ≤ (textWords b2 + 2 * codeWords b2 + 199) / 200 :=
    Nat.div_le_div_right (by omega)
  exact max_le_max le_rfl h

/-- Witness of C8: the prose `a b` alone and followed by an inline code region. -/
theorem calculateReadingTime_mono_code_witness :
    textWords (js "a b") = textWords (js "a b `x y`")
    ∧ codeWords (js "a b") ≤ codeWords (js "a b `x y`")
    ∧ calculateReadingTime (js "a b") ≤ calculateReadingTime (js "a b `x y`") :=
  ⟨by decide, by decide,
    calculateReadingTime_mono_code (js "a b") (js "a b `x y`") (by decide) (by decide)⟩

/-- C5 fails on the code: on a body of 1000 prose words joined by single spaces the filter
`readingTime` counts 1000 text words and 1 code word (the empty code-region text splits into
one empty piece) and returns `ceil(1000 / 200 + 1 / 100) = 6`, where the claim says 5; on a
body of 200 such words it returns 2, where the claim says 1. -/
theorem readingTime_thousand_words :
    filterTextWords (joinSpace (List.replicate 1000 (js "word"))) = 1000
    ∧ filterCodeWords (joinSpace (List.replicate 1000 (js "word"))) = 1
    ∧ readingTime (joinSpace (List.replicate 1000 (js "word"))) = 6
    ∧ readingTime (joinSpace (List.replicate 200 (js "word"))) = 2 := by
  have h := readingTime_proseBody (js "word") (List.replicate 999 ([SPACE], js "word"))
    (by decide) (fun p hp => by rw [List.eq_of_mem_replicate hp]; decide)
  have h2 := readingTime_proseBody (js "word") (List.replicate 199 ([SPACE], js "word"))
    (by decide) (fun p hp => by rw [List.eq_of_mem_replicate hp]; decide)
  rw [← joinSpace_replicate_succ, List.length_replicate] at h h2
  exact ⟨h.1, h.2.1, h.2.2, h2.2.2⟩

set_option maxRecDepth 1000000 in
/-- C6 fails on the code: a body of 200 prose words and one fenced block of 100 words gets the
estimate 3 when the fence markers touch the first and the last word of the block, and 4 when
the markers stand on lines of their own.  The inline expression matches the block a second time
(from the last backtick of the opening marker to the first one of the closing marker), so its
words are counted twice, and a marker that white space sets off is a code word of its own. -/
theorem calculateReadingTime_fenced_block :
    (textWords (joinSpace (List.replicate 200 (js "w")) ++ js " ```"
        ++ joinSpace (List.replicate 100 (js "c")) ++ js "```") = 200
      ∧ codeWords (joinSpace (List.replicate 200 (js "w")) ++ js " ```"
        ++ joinSpace (List.replicate 100 (js "c")) ++ js "```") = 200
      ∧ calculateReadingTime (joinSpace (List.replicate 200 (js "w")) ++ js " ```"
        ++ joinSpace (List.replicate 100 (js "c")) ++ js "```") = 3)
    ∧ (textWords (joinSpace (List.replicate 200 (js "w")) ++ js "\n```\n"
        ++ joinSpace (List.replicate 100 (js "c")) ++ js "\n```\n") = 200
      ∧ codeWords (joinSpace (List.replicate 200 (js "w")) ++ js "\n```\n"
        ++ joinSpace (List.replicate 100 (js "c")) ++ js "\n```\n") = 204
      ∧ calculateReadingTime (joinSpace (List.replicate 200 (js "w")) ++ js "\n```\n"
        ++ joinSpace (List.replicate 100 (js "c")) ++ js "\n```\n") = 4) := by
  have a1 : textWords (joinSpace (List.replicate 200 (js "w")) ++ js " ```"
        ++ joinSpace (List.replicate 100 (js "c")) ++ js "```") = 200 := by decide
  have a2 : codeWords (joinSpace (List.replicate 200 (js "w")) ++ js " ```"
        ++ joinSpace (List.replicate 100 (js "c")) ++ js "```") = 200 := by decide
  have b1 : textWords (joinSpace (List.replicate 200 (js "w")) ++ js "\n```\n"
        ++ joinSpace (List.replicate 100 (js "c")) ++ js "\n```\n") = 200 := by decide
  have b2 : codeWords (joinSpace (List.replicate 200 (js "w")) ++ js "\n```\n"
        ++ joinSpace (List.replicate 100 (js "c")) ++ js "\n```\n") = 204 := by decide
  refine ⟨⟨a1, a2, ?_⟩, b1, b2, ?_⟩
  · rw [calculateReadingTime_eq, a1, a2]; decide
  · rw [calculateReadingTime_eq, b1, b2]; decide

/-- C9: for every body whose only backticks are the three of one opening fence marker,
`calculateReadingTime` returns a result and treats the whole body as ordinary text: it finds no
code word, counts the tokens of the tag-stripped body as text words, and returns
`max(1, ceil(T / 200))` for that number `T` of tokens. -/
theorem calculateReadingTime_unterminated_fence (pre post : JsString)
    (hpre : TICK ∉ pre) (hpost : TICK ∉ post) :
    codeWords (pre ++ fence ++ post) = 0
    ∧ textWords (pre ++ fence ++ post) = tokenCount (removeAll tagRe (pre ++ fence ++ post))
    ∧ calculateReadingTime (pre ++ fence ++ post)
        = max 1 ⌈(tokenCount (removeAll tagRe (pre ++ fence ++ post)) : ℚ) / 200⌉₊ := by
  have hsub : removeAll tagRe (pre ++ fence ++ post) <+ pre ++ fence ++ post :=
    removeAllGo_sublist tagRe 0 _
  have h1 : matchAll fenceRe (pre ++ fence ++ post) = [] :=
    matchAllGo_of_no_match _ _ (fun t ht =>
      (no_code_match_single_fence pre post _ t hpre hpost (List.Sublist.refl _) ht).1)
  have h2 : matchAll inlineRe (pre ++ fence ++ post) = [] :=
    matchAllGo_of_no_match _ _ (fun t ht =>
      (no_code_match_single_fence pre post _ t hpre hpost (List.Sublist.refl _) ht).2)
  have h3 : removeAll fenceRe (removeAll tagRe (pre ++ fence ++ post))
      = removeAll tagRe (pre ++ fence ++ post) :=
    removeAllGo_of_no_match _ _ (fun t ht =>
      (no_code_match_single_fence pre post _ t hpre hpost hsub ht).1)
  have h4 : removeAll inlineRe (removeAll tagRe (pre ++ fence ++ post))
      = removeAll tagRe (pre ++ fence ++ post) :=
    removeAllGo_of_no_match _ _ (fun t ht =>
      (no_code_match_single_fence pre post _ t hpre hpost hsub ht).2)
  have hc : codeWords (pre ++ fence ++ post) = 0 := by
    simp only [codeWords, h1, h2]
    decide
  have ht : textWords (pre ++ fence ++ post)
      = tokenCount (removeAll tagRe (pre ++ fence ++ post)) := by
    simp only [textWords, h3, h4, wordCount_eq_tokenCount]
  refine ⟨hc, ht, ?_⟩
  rw [calculateReadingTime_eq, hc, ht, ceil_div_200]

/-- Witness of C9: a paragraph, an opening fence marker with a language name, and code with a
tag in it, without a closing marker. -/
theorem calculateReadingTime_unterminated_fence_witness :
    (TICK ∉ js "Some text\n" ∧ TICK ∉ js "js\nlet x = 1 <b>bold</b>")
    ∧ codeWords (js "Some text\n" ++ fence ++ js "js\nlet x = 1 <b>bold</b>") = 0
    ∧ textWords (js "Some text\n" ++ fence ++ js "js\nlet x = 1 <b>bold</b>")
        = tokenCount (removeAll tagRe
            (js "Some text\n" ++ fence ++ js "js\nlet x = 1 <b>bold</b>"))
    ∧ calculateReadingTime (js "Some text\n" ++ fence ++ js "js\nlet x = 1 <b>bold</b>")
        = max 1 ⌈(tokenCount (removeAll tagRe
            (js "Some text\n" ++ fence ++ js "js\nlet x = 1 <b>bold</b>")) : ℚ) / 200⌉₊ :=
  ⟨by decide,
    calculateReadingTime_unterminated_fence (js "Some text\n") (js "js\nlet x = 1 <b>bold</b>")
      (by decide) (by decide)⟩

/-! ## The list of tags -/

theorem mem_setAdd (tagSet : List JsString) (tag t : JsString) :
    t ∈ setAdd tagSet tag ↔ t ∈ tagSet ∨ t = tag := by
  unfold setAdd
  split
  · constructor
    · exact Or.inl
    · rintro (h | h)
      · exact h
      · subst h; assumption
  · simp

theorem nodup_setAdd (tagSet : List JsString) (tag : JsString) (h : tagSet.Nodup) :
    (setAdd tagSet tag).Nodup := by
  unfold setAdd
  split
  · exact h
  · rename_i hmem
    exact List.Nodup.append h (List.nodup_singleton tag) (by simpa using hmem)

theorem mem_foldl_tags (tags : List JsString) (acc : List JsString) (t : JsString) :
    t ∈ tags.foldl (fun tagSet tag =>
        if tag ≠ reservedTag then setAdd tagSet tag else tagSet) acc
      ↔ t ∈ acc ∨ (t ≠ reservedTag ∧ t ∈ tags) := by
  induction tags generalizing acc with
  | nil => simp
  | cons tag rest ih =>
    rw [List.foldl_cons, ih]
    by_cases htag : tag ≠ reservedTag
    · rw [if_pos htag]
      simp only [mem_setAdd, List.mem_cons]
      constructor
      · rintro ((h | h) | ⟨h1, h2⟩)
        · exact Or.inl h
        · exact Or.inr ⟨h ▸ htag, Or.inl h⟩
        · exact Or.inr ⟨h1, Or.inr h2⟩
      · rintro (h | ⟨h1, h2 | h2⟩)
        · exact Or.inl (Or.inl h)
        · exact Or.inl (Or.inr h2)
        · exact Or.inr ⟨h1, h2⟩
    · have he : tag = reservedTag := not_not.mp htag
      rw [if_neg htag]
      simp only [List.mem_cons]
      constructor
      · rintro (h | ⟨h1, h2⟩)
        · exact Or.inl h
        · exact Or.inr ⟨h1, Or.inr h2⟩
      · rintro (h | ⟨h1, h2 | h2⟩)
        · exact Or.inl h
        · exact absurd (h2.trans he) h1
        · exact Or.inr ⟨h1, h2⟩

theorem nodup_foldl_tags (tags : List JsString) (acc : List JsString) (h : acc.Nodup) :
    (tags.foldl (fun tagSet tag =>
        if tag ≠ reservedTag then setAdd tagSet tag else tagSet) acc).Nodup := by
  induction tags generalizing acc with
  | nil => simpa using h
  | cons tag rest ih =>
    rw [List.foldl_cons]
    apply ih
    split
    · exact nodup_setAdd acc tag h
    · exact h

theorem mem_foldl_posts (posts : List Post) (acc : List JsString) (t : JsString) :
    t ∈ posts.foldl (fun tagSet item =>
        (tagsOf item).foldl (fun tagSet tag =>
          if tag ≠ reservedTag then setAdd tagSet tag else tagSet) tagSet) acc
      ↔ t ∈ acc ∨ (t ≠ reservedTag ∧ ∃ p ∈ posts, t ∈ tagsOf p) := by
  induction posts generalizing acc with
  | nil => simp
  | cons item rest ih =>
    rw [List.foldl_cons, ih, mem_foldl_tags]
    constructor
    · rintro ((h | ⟨h1, h2⟩) | ⟨h1, p, hp, h2⟩)
      · exact Or.inl h
      · exact Or.inr ⟨h1, item, List.mem_cons_self _ _, h2⟩
      · exact Or.inr ⟨h1, p, List.mem_cons_of_mem _ hp, h2⟩
    · rintro (h | ⟨h1, p, hp, h2⟩)
      · exact Or.inl (Or.inl h)
      · rcases List.mem_cons.mp hp with e | hp
        · exact Or.inl (Or.inr ⟨h1, e ▸ h2⟩)
        · exact Or.inr ⟨h1, p, hp, h2⟩

theorem nodup_foldl_posts (posts : List Post) (acc : List JsString) (h : acc.Nodup) :
    (posts.foldl (fun tagSet item =>
        (tagsOf item).foldl (fun tagSet tag =>
          if tag ≠ reservedTag then setAdd tagSet tag else tagSet) tagSet) acc).Nodup := by
  induction posts generalizing acc with
  | nil => simpa using h
  | cons item rest ih =>
    rw [List.foldl_cons]
    exact ih _ (nodup_foldl_tags _ _ h)

theorem sortTags_sorted_lt (tagSet : List JsString) (h : tagSet.Nodup) :
    (sortTags tagSet).Sorted (fun a b => a < b) := by
  have hs : (sortTags tagSet).Sorted (fun a b => a ≤ b) :=
    List.sorted_insertionSort (fun a b : JsString => a ≤ b) tagSet
  have hn : (sortTags tagSet).Nodup :=
    (List.perm_insertionSort (fun a b : JsString => a ≤ b) tagSet).nodup_iff.mpr h
  exact hs.lt_of_le hn

theorem mem_sortTags (tagSet : List JsString) (t : JsString) :
    t ∈ sortTags tagSet ↔ t ∈ tagSet :=
  (List.perm_insertionSort (fun a b : JsString => a ≤ b) tagSet).mem_iff

/-- C10: for every list of posts the collection `tagList`, and likewise the filter `getAllTags`,
is strictly ascending in the lexicographic order of strings (so it is sorted and free of
duplicates), does not hold the reserved tag `post`, and holds exactly the tags other than
`post` that occur in the tag list of some post, as they are written there.  For posts tagged
`[js, tutorial]`, `[py, tutorial]`, `[js, perf]` it is `[js, perf, py, tutorial]`. -/
theorem tagList_sorted_exact (posts : List Post) :
    (tagList posts).Sorted (fun a b => a < b)
    ∧ reservedTag ∉ tagList posts
    ∧ (∀ t, t ∈ tagList posts ↔ (t ≠ reservedTag ∧ ∃ p ∈ posts, t ∈ tagsOf p))
    ∧ getAllTags posts = tagList posts
    ∧ tagList examplePosts = [js "js", js "perf", js "py", js "tutorial"] := by
  have hmem : ∀ t, t ∈ tagList posts ↔ (t ≠ reservedTag ∧ ∃ p ∈ posts, t ∈ tagsOf p) := by
    intro t
    unfold tagList
    simp only [mem_sortTags, mem_foldl_posts, List.not_mem_nil, false_or]
  refine ⟨?_, ?_, hmem, rfl, by decide⟩
  · unfold tagList
    exact sortTags_sorted_lt _ (nodup_foldl_posts posts [] List.nodup_nil)
  · intro h
    exact ((hmem reservedTag).mp h).1 rfl

/-! ## Maps as lists of entries -/

theorem mapHas_iff (tagMap : TagMap) (tag : JsString) :
    mapHas tagMap tag = true ↔ tag ∈ mapKeys tagMap := by
  simp [mapHas]

theorem mapGet_eq_none_iff (tagMap : TagMap) (tag : JsString) :
    mapGet tagMap tag = none ↔ tag ∉ mapKeys tagMap := by
  induction tagMap with
  | nil => simp [mapGet, mapKeys]
  | cons entry rest ih =>
    by_cases h : entry.1 = tag
    · simp [mapGet, mapKeys, h]
    · have h2 : ¬ tag = entry.1 := fun e => h e.symm
      simp only [mapKeys] at ih
      simp [mapGet, mapKeys, h, h2, ih]

theorem mapKeys_mapPush (tagMap : TagMap) (tag : JsString) (post : Post) :
    mapKeys (mapPush tagMap tag post) = mapKeys tagMap := by
  induction tagMap with
  | nil => rfl
  | cons entry rest ih =>
    simp only [mapKeys, mapPush, List.map_cons] at ih ⊢
    rw [ih]
    by_cases h : entry.1 = tag <;> simp [h]

theorem mapGet_mapPush (tagMap : TagMap) (tag : JsString) (post : Post) (t : JsString) :
    mapGet (mapPush tagMap tag post) t
      = if t = tag then (mapGet tagMap t).map (fun b => b ++ [post]) else mapGet tagMap t := by
  induction tagMap with
  | nil => simp [mapGet, mapPush]
  | cons entry rest ih =>
    simp only [mapPush, List.map_cons] at ih ⊢
    by_cases ht : t = tag
    · subst ht
      rw [if_pos rfl] at ih ⊢
      by_cases h : entry.1 = t
      · simp [mapGet, h]
      · simp [mapGet, h, ih]
    · rw [if_neg ht] at ih ⊢
      by_cases h : entry.1 = tag
      · have h3 : ¬ tag = t := fun e => ht e.symm
        simp [mapGet, h, h3, ih]
      · by_cases h3 : entry.1 = t
        · simp [mapGet, h, h3, ht]
        · simp [mapGet, h, h3, ih]

theorem mapGet_append_new (tagMap : TagMap) (tag t : JsString) (value : List Post)
    (h : tag ∉ mapKeys tagMap) :
    mapGet (tagMap ++ [(tag, value)]) t = if t = tag then some value else mapGet tagMap t := by
  induction tagMap with
  | nil =>
    by_cases ht : t = tag
    · simp [mapGet, ht]
    · have h2 : ¬ tag = t := fun e => ht e.symm
      simp [mapGet, ht, h2]
  | cons entry rest ih =>
    have hr : tag ∉ mapKeys rest := fun hm => h (by simp [mapKeys] at hm ⊢; exact Or.inr hm)
    have he : entry.1 ≠ tag := fun e => h (by simp [mapKeys]; exact Or.inl e.symm)
    simp only [List.cons_append, mapGet]
    by_cases h3 : entry.1 = t
    · have ht : ¬ t = tag := fun e => he (h3.trans e)
      simp [h3, ht]
    · simp [h3, ih hr]

theorem mapGet_map_values (tagMap : TagMap) (f : List Post → List Post) (t : JsString) :
    mapGet (tagMap.map (fun entry => (entry.1, f entry.2))) t = (mapGet tagMap t).map f := by
  induction tagMap with
  | nil => rfl
  | cons entry rest ih =>
    by_cases h : entry.1 = t <;> simp [mapGet, h, ih]

theorem mapKeys_map_values (tagMap : TagMap) (f : List Post → List Post) :
    mapKeys (tagMap.map (fun entry => (entry.1, f entry.2))) = mapKeys tagMap := by
  simp [mapKeys, List.map_map, Function.comp_def]

/-! ## One step of the tag index -/

theorem mapKeys_bucketStep (post : Post) (tagMap : TagMap) (tag : JsString) :
    mapKeys (bucketStep post tagMap tag)
      = if tag ≠ reservedTag then setAdd (mapKeys tagMap) tag else mapKeys tagMap := by
  unfold bucketStep
  by_cases hres : tag ≠ reservedTag
  · rw [if_pos hres, if_pos hres, mapKeys_mapPush]
    by_cases hhas : tag ∈ mapKeys tagMap
    · have h1 : mapHas tagMap tag = true := (mapHas_iff _ _).mpr hhas
      simp [h1, setAdd, hhas]
    · have h1 : mapHas tagMap tag = false := by
        cases hb : mapHas tagMap tag with
        | false => rfl
        | true => exact absurd ((mapHas_iff _ _).mp hb) hhas
      have hm : (if (!mapHas tagMap tag) = true then mapSet tagMap tag [] else tagMap)
          = tagMap ++ [(tag, [])] := by simp [h1, mapSet]
      rw [hm, setAdd, if_neg hhas]
      simp [mapKeys]
  · rw [if_neg hres, if_neg hres]

theorem bucket_bucketStep (post : Post) (tagMap : TagMap) (tag t : JsString) :
    bucket (bucketStep post tagMap tag) t
      = if tag ≠ reservedTag ∧ t = tag then bucket tagMap t ++ [post] else bucket tagMap t := by
  unfold bucketStep
  by_cases hres : tag ≠ reservedTag
  · rw [if_pos hres]
    simp only [bucket, mapGet_mapPush]
    by_cases hhas : tag ∈ mapKeys tagMap
    · have h1 : mapHas tagMap tag = true := (mapHas_iff _ _).mpr hhas
      by_cases ht : t = tag
      · subst ht
        cases hg : mapGet tagMap t with
        | none => exact absurd hhas ((mapGet_eq_none_iff _ _).mp hg)
        | some b => simp [h1, hg, hres]
      · simp [h1, ht]
    · have h1 : mapHas tagMap tag = false := by
        cases hb : mapHas tagMap tag with
        | false => rfl
        | true => exact absurd ((mapHas_iff _ _).mp hb) hhas
      have hm : (if (!mapHas tagMap tag) = true then mapSet tagMap tag [] else tagMap)
          = tagMap ++ [(tag, [])] := by simp [h1, mapSet]
      rw [hm, mapGet_append_new tagMap tag t [] hhas]
      by_cases ht : t = tag
      · subst ht
        have hg : mapGet tagMap t = none := (mapGet_eq_none_iff _ _).mpr hhas
        simp [hg, hres]
      · simp [ht]
  · rw [if_neg hres]
    simp [hres]

theorem mapKeys_foldl_bucketStep (post : Post) (tags : List JsString) (tagMap : TagMap) :
    mapKeys (tags.foldl (bucketStep post) tagMap)
      = tags.foldl (fun tagSet tag =>
          if tag ≠ reservedTag then setAdd tagSet tag else tagSet) (mapKeys tagMap) := by
  induction tags generalizing tagMap with
  | nil => rfl
  | cons tag rest ih =>
    rw [List.foldl_cons, List.foldl_cons, ih, mapKeys_bucketStep]

theorem bucket_foldl_bucketStep (post : Post) (tags : List JsString) (tagMap : TagMap)
    (t : JsString) (ht : t ≠ reservedTag) :
    bucket (tags.foldl (bucketStep post) tagMap) t
      = bucket tagMap t ++ List.replicate (tags.count t) post := by
  induction tags generalizing tagMap with
  | nil => simp
  | cons tag rest ih =>
    rw [List.foldl_cons, ih, bucket_bucketStep]
    by_cases h : t = tag
    · subst h
      simp [ht, List.count_cons, List.replicate_succ']
      rw [← List.replicate_succ', List.replicate_succ]
    · have h2 : ¬ tag = t := fun e => h e.symm
      simp [h, List.count_cons, h2]

theorem mapKeys_foldl_posts (posts : List Post) (tagMap : TagMap) :
    mapKeys (posts.foldl (fun tagMap post => (tagsOf post).foldl (bucketStep post) tagMap) tagMap)
      = posts.foldl (fun tagSet item =>
          (tagsOf item).foldl (fun tagSet tag =>
            if tag ≠ reservedTag then setAdd tagSet tag else tagSet) tagSet) (mapKeys tagMap) := by
  induction posts generalizing tagMap with
  | nil => rfl
  | cons post rest ih =>
    rw [List.foldl_cons, List.foldl_cons, ih, mapKeys_foldl_bucketStep]

theorem bucket_foldl_posts (posts : List Post) (tagMap : TagMap) (t : JsString)
    (ht : t ≠ reservedTag) :
    bucket (posts.foldl (fun tagMap post => (tagsOf post).foldl (bucketStep post) tagMap) tagMap) t
      = bucket tagMap t ++ pushedFor posts t := by
  induction posts generalizing tagMap with
  | nil => simp [pushedFor]
  | cons post rest ih =>
    rw [List.foldl_cons, ih, bucket_foldl_bucketStep post _ _ t ht, pushedFor,
      List.append_assoc]

/-! ## The keys and the buckets of the tag index -/

theorem mapKeys_postsByTag (posts : List Post) :
    mapKeys (postsByTag posts)
      = posts.foldl (fun tagSet item =>
          (tagsOf item).foldl (fun tagSet tag =>
            if tag ≠ reservedTag then setAdd tagSet tag else tagSet) tagSet) [] := by
  unfold postsByTag buildTagMap
  rw [mapKeys_map_values, mapKeys_foldl_posts]
  rfl

theorem mem_mapKeys_postsByTag (posts : List Post) (t : JsString) :
    t ∈ mapKeys (postsByTag posts) ↔ (t ≠ reservedTag ∧ ∃ p ∈ posts, t ∈ tagsOf p) := by
  rw [mapKeys_postsByTag, mem_foldl_posts]
  simp

theorem nodup_mapKeys_postsByTag (posts : List Post) : (mapKeys (postsByTag posts)).Nodup := by
  rw [mapKeys_postsByTag]
  exact nodup_foldl_posts posts [] List.nodup_nil

theorem bucket_buildTagMap (posts : List Post) (t : JsString) (ht : t ≠ reservedTag) :
    bucket (buildTagMap posts) t = pushedFor posts t := by
  unfold buildTagMap
  rw [bucket_foldl_posts posts [] t ht]
  simp [bucket, mapGet]

theorem mapGet_postsByTag (posts : List Post) (t : JsString) (b : List Post)
    (h : mapGet (postsByTag posts) t = some b) :
    t ∈ mapKeys (postsByTag posts) ∧ b = sortByDate (pushedFor posts t) := by
  have hkey : t ∈ mapKeys (postsByTag posts) := by
    by_contra hn
    rw [(mapGet_eq_none_iff _ _).mpr hn] at h
    exact absurd h (by simp)
  refine ⟨hkey, ?_⟩
  have hres : t ≠ reservedTag := ((mem_mapKeys_postsByTag posts t).mp hkey).1
  have hb := bucket_buildTagMap posts t hres
  unfold postsByTag at h
  rw [mapGet_map_values] at h
  cases hg : mapGet (buildTagMap posts) t with
  | none => simp [hg] at h
  | some b0 =>
    simp only [hg, Option.map_some', Option.some.injEq] at h
    simp only [bucket, hg, Option.getD_some] at hb
    rw [← h, hb]

theorem mapGet_postsByTag_of_key (posts : List Post) (t : JsString)
    (h : t ∈ mapKeys (postsByTag posts)) :
    mapGet (postsByTag posts) t = some (sortByDate (pushedFor posts t)) := by
  cases hg : mapGet (postsByTag posts) t with
  | none => exact absurd h ((mapGet_eq_none_iff _ _).mp hg)
  | some b => rw [(mapGet_postsByTag posts t b hg).2]

theorem mem_pushedFor (posts : List Post) (t : JsString) (p : Post) :
    p ∈ pushedFor posts t ↔ (p ∈ posts ∧ t ∈ tagsOf p) := by
  induction posts with
  | nil => simp [pushedFor]
  | cons q rest ih =>
    simp only [pushedFor, List.mem_append, List.mem_replicate, ih, List.mem_cons]
    constructor
    · rintro (⟨hc, he⟩ | ⟨h1, h2⟩)
      · subst he
        exact ⟨Or.inl rfl, List.count_pos_iff.mp (Nat.pos_of_ne_zero hc)⟩
      · exact ⟨Or.inr h1, h2⟩
    · rintro ⟨he | h1, h2⟩
      · subst he
        exact Or.inl ⟨Nat.pos_iff_ne_zero.mp (List.count_pos_iff.mpr h2), rfl⟩
      · exact Or.inr ⟨h1, h2⟩

/-! ## Sorting a bucket -/

theorem sortByDate_perm (posts : List Post) : (sortByDate posts).Perm posts :=
  List.perm_insertionSort _ posts

theorem sortByDate_sorted (posts : List Post) :
    (sortByDate posts).Sorted (fun a b => b.date ≤ a.date) := by
  haveI : IsTotal Post (fun a b => b.date ≤ a.date) := ⟨fun a b => le_total b.date a.date⟩
  haveI : IsTrans Post (fun a b => b.date ≤ a.date) := ⟨fun _ _ _ h1 h2 => le_trans h2 h1⟩
  exact List.sorted_insertionSort (fun a b : Post => b.date ≤ a.date) posts

/-- Stability: the posts of one date stand in a sorted bucket as they stood before. -/
theorem sortByDate_filter_date (posts : List Post) (d : Int) :
    (sortByDate posts).filter (fun p => decide (p.date = d))
      = posts.filter (fun p => decide (p.date = d)) := by
  have hpw : (posts.filter (fun p => decide (p.date = d))).Pairwise
      (fun a b => b.date ≤ a.date) := by
    rw [List.pairwise_iff_forall_sublist]
    intro a b hab
    have ha : a ∈ posts.filter (fun p => decide (p.date = d)) := hab.subset (by simp)
    have hb : b ∈ posts.filter (fun p => decide (p.date = d)) := hab.subset (by simp)
    simp only [List.mem_filter, decide_eq_true_eq] at ha hb
    rw [ha.2, hb.2]
  have hsub : posts.filter (fun p => decide (p.date = d)) <+ sortByDate posts :=
    List.sublist_insertionSort hpw (List.filter_sublist posts)
  have hsub2 : posts.filter (fun p => decide (p.date = d))
      <+ (sortByDate posts).filter (fun p => decide (p.date = d)) := by
    have := hsub.filter (fun p => decide (p.date = d))
    simpa [List.filter_filter] using this
  have hlen : ((sortByDate posts).filter (fun p => decide (p.date = d))).length
      = (posts.filter (fun p => decide (p.date = d))).length :=
    ((sortByDate_perm posts).filter _).length_eq
  exact (hsub2.eq_of_length hlen.symm).symm

/-! ## The order of the keys -/

theorem foldl_setAdd_eq (l acc : List JsString) :
    l.foldl setAdd acc = acc ++ (firstOccurrences l).filter (fun t => decide (t ∉ acc)) := by
  induction l generalizing acc with
  | nil => simp [firstOccurrences]
  | cons t ts ih =>
    rw [List.foldl_cons, ih, firstOccurrences]
    by_cases h : t ∈ acc
    · have hs : setAdd acc t = acc := by simp [setAdd, h]
      rw [hs, List.filter_cons_of_neg (by simpa using h), List.filter_filter]
      congr 1
      apply List.filter_congr
      intro x _
      by_cases hx : x ∈ acc
      · simp [hx]
      · have hne : x ≠ t := fun e => hx (e ▸ h)
        simp [hx, hne]
    · have hs : setAdd acc t = acc ++ [t] := by simp [setAdd, h]
      rw [hs, List.filter_cons_of_pos (by simpa using h), List.filter_filter,
        List.append_assoc]
      congr 1
      simp only [List.singleton_append, List.cons.injEq, true_and]
      apply List.filter_congr
      intro x _
      by_cases hx : x ∈ acc <;> by_cases hne : x = t <;> simp [hx, hne]

theorem foldl_if_setAdd (tags acc : List JsString) :
    tags.foldl (fun tagSet tag => if tag ≠ reservedTag then setAdd tagSet tag else tagSet) acc
      = (tags.filter (fun tag => decide (tag ≠ reservedTag))).foldl setAdd acc := by
  induction tags generalizing acc with
  | nil => rfl
  | cons tag rest ih =>
    rw [List.foldl_cons, ih]
    by_cases h : tag ≠ reservedTag
    · rw [if_pos h, List.filter_cons_of_pos (by simpa using h), List.foldl_cons]
    · rw [if_neg h, List.filter_cons_of_neg (by simpa using h)]

theorem foldl_posts_setAdd (posts : List Post) (acc : List JsString) :
    posts.foldl (fun tagSet item =>
        (tagsOf item).foldl (fun tagSet tag =>
          if tag ≠ reservedTag then setAdd tagSet tag else tagSet) tagSet) acc
      = ((allTags posts).filter (fun tag => decide (tag ≠ reservedTag))).foldl setAdd acc := by
  induction posts generalizing acc with
  | nil => rfl
  | cons post rest ih =>
    rw [List.foldl_cons, ih, foldl_if_setAdd, allTags, List.filter_append, List.foldl_append]

theorem mapKeys_postsByTag_eq_firstOccurrences (posts : List Post) :
    mapKeys (postsByTag posts)
      = firstOccurrences ((allTags posts).filter (fun tag => decide (tag ≠ reservedTag))) := by
  rw [mapKeys_postsByTag, foldl_posts_setAdd, foldl_setAdd_eq]
  simp

/-! ## Posts whose tag lists repeat no tag -/

theorem count_eq_one_of_nodup (l : List JsString) (t : JsString) (hn : l.Nodup)
    (hm : t ∈ l) : l.count t = 1 := by
  induction l with
  | nil => simp at hm
  | cons a rest ih =>
    obtain ⟨ha, hr⟩ := List.nodup_cons.mp hn
    rw [List.count_cons]
    by_cases h : a = t
    · subst h
      simp [List.count_eq_zero_of_not_mem ha]
    · have hm2 : t ∈ rest := by
        rcases List.mem_cons.mp hm with e | hm2
        · exact absurd e.symm h
        · exact hm2
      simp [ih hr hm2, h]

theorem pushedFor_eq_filter (posts : List Post) (t : JsString)
    (htags : ∀ p ∈ posts, (tagsOf p).Nodup) :
    pushedFor posts t = posts.filter (fun post => decide (t ∈ tagsOf post)) := by
  induction posts with
  | nil => rfl
  | cons q rest ih =>
    have hr := ih (fun p hp => htags p (List.mem_cons_of_mem q hp))
    have hq : (tagsOf q).Nodup := htags q (List.mem_cons_self q rest)
    rw [pushedFor, hr]
    by_cases hm : t ∈ tagsOf q
    · have hc : (tagsOf q).count t = 1 := count_eq_one_of_nodup _ t hq hm
      rw [hc, List.filter_cons_of_pos (by simpa using hm)]
      rfl
    · have hc : (tagsOf q).count t = 0 := List.count_eq_zero_of_not_mem hm
      rw [hc, List.filter_cons_of_neg (by simpa using hm)]
      rfl

theorem bucket_postsByTag (posts : List Post) (t : JsString) (ht : t ≠ reservedTag) :
    bucket (postsByTag posts) t = sortByDate (pushedFor posts t) := by
  have hb := bucket_buildTagMap posts t ht
  unfold postsByTag
  simp only [bucket, mapGet_map_values] at hb ⊢
  cases hg : mapGet (buildTagMap posts) t with
  | none =>
    rw [hg] at hb
    simp only [Option.getD_none] at hb
    simp [← hb, sortByDate]
  | some b0 =>
    rw [hg] at hb
    simp only [Option.getD_some] at hb
    simp [hb]

/-! ## The claims on the tag index -/

/-- C11 fails on the code: for the three articles of the example in the specification the map
enumerates its keys as `js, tutorial, py, perf`, which is not sorted. -/
theorem postsByTag_keys_not_sorted :
    mapKeys (postsByTag examplePosts) = [js "js", js "tutorial", js "py", js "perf"]
    ∧ ¬ (mapKeys (postsByTag examplePosts)).Sorted (fun a b => a ≤ b) := by
  decide

/-- C11 as amended: for every list of posts the keys of `postsByTag`, in the order the map
enumerates them, have no duplicates; they stand in the order in which the tags other than `post`
occur first in the posts. -/
theorem postsByTag_keys_first_seen (posts : List Post) :
    (mapKeys (postsByTag posts)).Nodup
    ∧ mapKeys (postsByTag posts)
        = firstOccurrences ((allTags posts).filter (fun tag => decide (tag ≠ reservedTag))) :=
  ⟨nodup_mapKeys_postsByTag posts, mapKeys_postsByTag_eq_firstOccurrences posts⟩

/-- C12 fails on the code: a collection that holds one draft tagged `js` gives a tag index whose
bucket for `js` holds that draft. -/
theorem postsByTag_holds_draft :
    (datedPost "draft.md" ["js"] 0 true).draft = true
    ∧ bucket (postsByTag [datedPost "draft.md" ["js"] 0 true]) (js "js")
        = [datedPost "draft.md" ["js"] 0 true] := by
  decide

/-- C13: for every list of posts and every key `t` of `postsByTag`, every post in the bucket for
`t` has `t` in its tag list, and the reserved tag `post` is never a key. -/
theorem postsByTag_bucket_tagged (posts : List Post) (t : JsString) (b : List Post)
    (h : mapGet (postsByTag posts) t = some b) :
    (∀ p ∈ b, t ∈ tagsOf p) ∧ reservedTag ∉ mapKeys (postsByTag posts) := by
  obtain ⟨_, hb⟩ := mapGet_postsByTag posts t b h
  constructor
  · intro p hp
    rw [hb] at hp
    exact ((mem_pushedFor posts t p).mp ((sortByDate_perm _).mem_iff.mp hp)).2
  · intro hm
    exact ((mem_mapKeys_postsByTag posts reservedTag).mp hm).1 rfl

/-- Witness of C13: the bucket for `js` of the three articles of the example. -/
theorem postsByTag_bucket_tagged_witness :
    mapGet (postsByTag examplePosts) (js "js")
        = some [taggedPost "a.md" ["js", "tutorial"], taggedPost "c.md" ["js", "perf"]]
    ∧ (∀ p ∈ [taggedPost "a.md" ["js", "tutorial"], taggedPost "c.md" ["js", "perf"]],
        js "js" ∈ tagsOf p)
    ∧ reservedTag ∉ mapKeys (postsByTag examplePosts) :=
  ⟨by decide, postsByTag_bucket_tagged examplePosts (js "js") _ (by decide)⟩

/-- C14: for every list of posts (their dates are time stamps) and every key `t` of `postsByTag`,
the bucket for `t` is sorted by falling date: a post is not older than any post behind it, in
particular not older than the post that follows it. -/
theorem postsByTag_bucket_sorted (posts : List Post) (t : JsString) (b : List Post)
    (h : mapGet (postsByTag posts) t = some b) :
    b.Pairwise (fun p q => q.date ≤ p.date) ∧ b.Chain' (fun p q => q.date ≤ p.date) := by
  obtain ⟨_, hb⟩ := mapGet_postsByTag posts t b h
  have hs : b.Pairwise (fun p q => q.date ≤ p.date) := by
    rw [hb]
    exact sortByDate_sorted _
  exact ⟨hs, hs.chain'⟩

/-- Witness of C14: three posts tagged `js` with the dates 3, 9 and 5. -/
theorem postsByTag_bucket_sorted_witness :
    mapGet (postsByTag threeDates) (js "js")
      = some [datedPost "b.md" ["js"] 9 false, datedPost "c.md" ["js"] 5 false,
          datedPost "a.md" ["js"] 3 false]
    ∧ [datedPost "b.md" ["js"] 9 false, datedPost "c.md" ["js"] 5 false,
        datedPost "a.md" ["js"] 3 false].Pairwise (fun p q => q.date ≤ p.date)
    ∧ [datedPost "b.md" ["js"] 9 false, datedPost "c.md" ["js"] 5 false,
        datedPost "a.md" ["js"] 3 false].Chain' (fun p q => q.date ≤ p.date) :=
  ⟨by decide, postsByTag_bucket_sorted threeDates (js "js") _ (by decide)⟩

/-- C15: for every list of posts and every key `t` of `postsByTag`, the bucket for `t` is a
permutation of the posts pushed to it, and the posts of one date stand in it in the order in
which they were pushed, which is their order in the collection. -/
theorem postsByTag_bucket_stable (posts : List Post) (t : JsString) (b : List Post)
    (h : mapGet (postsByTag posts) t = some b) :
    b.Perm (pushedFor posts t)
    ∧ ∀ d : Int, b.filter (fun p => decide (p.date = d))
        = (pushedFor posts t).filter (fun p => decide (p.date = d)) := by
  obtain ⟨_, hb⟩ := mapGet_postsByTag posts t b h
  rw [hb]
  exact ⟨sortByDate_perm _, fun d => sortByDate_filter_date _ d⟩

/-- Witness of C15: four posts tagged `js`, the first and the third of them with the date 5;
in the bucket the first still stands before the third. -/
theorem postsByTag_bucket_stable_witness :
    mapGet (postsByTag twoOfOneDate) (js "js")
      = some [datedPost "b.md" ["js"] 9 false, datedPost "d.md" ["js"] 7 false,
          datedPost "a.md" ["js"] 5 false, datedPost "c.md" ["js"] 5 false]
    ∧ ([datedPost "b.md" ["js"] 9 false, datedPost "d.md" ["js"] 7 false,
          datedPost "a.md" ["js"] 5 false, datedPost "c.md" ["js"] 5 false].Perm
        (pushedFor twoOfOneDate (js "js"))
      ∧ ∀ d : Int, [datedPost "b.md" ["js"] 9 false, datedPost "d.md" ["js"] 7 false,
          datedPost "a.md" ["js"] 5 false, datedPost "c.md" ["js"] 5 false].filter
            (fun p => decide (p.date = d))
        = (pushedFor twoOfOneDate (js "js")).filter (fun p => decide (p.date = d))) :=
  ⟨by decide, postsByTag_bucket_stable twoOfOneDate (js "js") _ (by decide)⟩

/-- C16 fails on the code: a single post whose tag list names `js` twice stands twice in the
bucket for `js`. -/
theorem postsByTag_bucket_repeats :
    [datedPost "a.md" ["js", "js"] 0 false].Nodup
    ∧ bucket (postsByTag [datedPost "a.md" ["js", "js"] 0 false]) (js "js")
        = [datedPost "a.md" ["js", "js"] 0 false, datedPost "a.md" ["js", "js"] 0 false]
    ∧ ¬ (bucket (postsByTag [datedPost "a.md" ["js", "js"] 0 false]) (js "js")).Nodup := by
  decide

/-- C16 as amended: for every list of distinct posts whose tag lists name no tag twice, and
every key `t` of `postsByTag`, no post occurs more than once in the bucket for `t`. -/
theorem postsByTag_bucket_nodup (posts : List Post) (t : JsString) (b : List Post)
    (hposts : posts.Nodup) (htags : ∀ p ∈ posts, (tagsOf p).Nodup)
    (h : mapGet (postsByTag posts) t = some b) : b.Nodup := by
  obtain ⟨_, hb⟩ := mapGet_postsByTag posts t b h
  rw [hb, (sortByDate_perm _).nodup_iff, pushedFor_eq_filter posts t htags]
  exact hposts.filter _

/-- Witness of C16 as amended: the three articles of the example and their bucket for `js`. -/
theorem postsByTag_bucket_nodup_witness :
    (examplePosts.Nodup ∧ (∀ p ∈ examplePosts, (tagsOf p).Nodup)
      ∧ mapGet (postsByTag examplePosts) (js "js")
        = some [taggedPost "a.md" ["js", "tutorial"], taggedPost "c.md" ["js", "perf"]])
    ∧ [taggedPost "a.md" ["js", "tutorial"], taggedPost "c.md" ["js", "perf"]].Nodup :=
  ⟨by decide,
    postsByTag_bucket_nodup examplePosts (js "js") _ (by decide) (by decide) (by decide)⟩

/-- C17: for every list of posts, the collection `tagList` is the lexicographically sorted
sequence of the keys of `postsByTag` for the same posts: the two hold the same tags, each
once. -/
theorem tagList_eq_sorted_keys (posts : List Post) :
    tagList posts = sortTags (mapKeys (postsByTag posts))
    ∧ (∀ t, t ∈ tagList posts ↔ t ∈ mapKeys (postsByTag posts))
    ∧ (tagList posts).Nodup ∧ (mapKeys (postsByTag posts)).Nodup := by
  have h1 : tagList posts = sortTags (mapKeys (postsByTag posts)) := by
    rw [mapKeys_postsByTag]
    rfl
  have h2 := nodup_mapKeys_postsByTag posts
  refine ⟨h1, fun t => ?_, ?_, h2⟩
  · rw [h1, mem_sortTags]
  · rw [h1]
    exact (List.perm_insertionSort (fun a b : JsString => a ≤ b) _).nodup_iff.mpr h2

/-- C18 fails on the code: for one post tagged `post` the filter `getTagCount` counts 1 for
the tag `post`, which is no key of `postsByTag`; for one post whose tag list names `js` twice
it counts 1 for `js`, whose bucket has length 2. -/
theorem getTagCount_ne_bucket_length :
    (getTagCount [taggedPost "a.md" ["post"]] (js "post") = 1
      ∧ (bucket (postsByTag [taggedPost "a.md" ["post"]]) (js "post")).length = 0)
    ∧ (getTagCount [taggedPost "a.md" ["js", "js"]] (js "js") = 1
      ∧ (bucket (postsByTag [taggedPost "a.md" ["js", "js"]]) (js "js")).length = 2) := by
  decide

/-- C18 as amended: for every list of posts whose tag lists name no tag twice and every tag
`t` other than `post`, `getTagCount(posts, t)` is the length of the bucket of `t` in
`postsByTag`, taken as 0 when `t` is not a key. -/
theorem getTagCount_eq_bucket_length (posts : List Post) (t : JsString)
    (htags : ∀ p ∈ posts, (tagsOf p).Nodup) (ht : t ≠ reservedTag) :
    getTagCount posts t = (bucket (postsByTag posts) t).length := by
  rw [bucket_postsByTag posts t ht, (sortByDate_perm _).length_eq,
    pushedFor_eq_filter posts t htags]
  rfl

/-- Witness of C18 as amended: the three articles of the example and the tag `tutorial`. -/
theorem getTagCount_eq_bucket_length_witness :
    ((∀ p ∈ examplePosts, (tagsOf p).Nodup) ∧ js "tutorial" ≠ reservedTag)
    ∧ getTagCount examplePosts (js "tutorial")
        = (bucket (postsByTag examplePosts) (js "tutorial")).length :=
  ⟨by decide, getTagCount_eq_bucket_length examplePosts (js "tutorial") (by decide) (by decide)⟩

/-- C19: for every list of posts and every tag that occurs in the tag list of no post,
`getTagCount` is 0; a post without a `tags` field counts as a post without tags. -/
theorem getTagCount_absent (posts : List Post) (t : JsString)
    (h : ∀ p ∈ posts, t ∉ tagsOf p) : getTagCount posts t = 0 := by
  unfold getTagCount
  rw [List.length_eq_zero, List.filter_eq_nil_iff]
  intro p hp
  simpa using h p hp

/-- Witness of C19: a post without a `tags` field, a post tagged `js`, and the tag `rust`. -/
theorem getTagCount_absent_witness :
    (∀ p ∈ [untaggedPost "a.md", taggedPost "b.md" ["js"]], js "rust" ∉ tagsOf p)
    ∧ getTagCount [untaggedPost "a.md", taggedPost "b.md" ["js"]] (js "rust") = 0 :=
  ⟨by decide,
    getTagCount_absent [untaggedPost "a.md", taggedPost "b.md" ["js"]] (js "rust") (by decide)⟩

/-- C20 fails on the code: no article of the example carries the empty string as a tag, yet
for the empty string `filterByTag` returns all three articles. -/
theorem filterByTag_empty_tag :
    (∀ p ∈ examplePosts, ([] : JsString) ∉ tagsOf p)
    ∧ filterByTag examplePosts [] = examplePosts
    ∧ filterByTag examplePosts [] ≠ [] := by
  decide

/-- C20 as amended: for every list of posts and every tag other than the empty string that no
post carries, `filterByTag` returns the empty sequence. -/
theorem filterByTag_absent (posts : List Post) (tag : JsString)
    (hne : tag ≠ []) (h : ∀ p ∈ posts, tag ∉ tagsOf p) : filterByTag posts tag = [] := by
  unfold filterByTag
  rw [if_neg hne, List.filter_eq_nil_iff]
  intro p hp
  simpa using h p hp

/-- Witness of C20 as amended: the three articles of the example and the tag `rust`. -/
theorem filterByTag_absent_witness :
    (js "rust" ≠ [] ∧ ∀ p ∈ examplePosts, js "rust" ∉ tagsOf p)
    ∧ filterByTag examplePosts (js "rust") = [] :=
  ⟨by decide, filterByTag_absent examplePosts (js "rust") (by decide) (by decide)⟩

/-! ## Posts that carry no tag of their own -/

theorem foldl_bucketStep_of_reserved (p : Post) (tags : List JsString) (tagMap : TagMap)
    (h : ∀ t ∈ tags, t = reservedTag) : tags.foldl (bucketStep p) tagMap = tagMap := by
  induction tags generalizing tagMap with
  | nil => rfl
  | cons t rest ih =>
    have ht : t = reservedTag := h t (List.mem_cons_self t rest)
    have hstep : bucketStep p tagMap t = tagMap := by simp [bucketStep, ht]
    rw [List.foldl_cons, hstep]
    exact ih tagMap (fun u hu => h u (List.mem_cons_of_mem t hu))

theorem foldl_setAdd_of_reserved (tags : List JsString) (tagSet : List JsString)
    (h : ∀ t ∈ tags, t = reservedTag) :
    tags.foldl (fun tagSet tag => if tag ≠ reservedTag then setAdd tagSet tag else tagSet) tagSet
      = tagSet := by
  induction tags generalizing tagSet with
  | nil => rfl
  | cons t rest ih =>
    have ht : t = reservedTag := h t (List.mem_cons_self t rest)
    rw [List.foldl_cons, if_neg (by simp [ht])]
    exact ih tagSet (fun u hu => h u (List.mem_cons_of_mem t hu))

theorem buildTagMap_skip (pre post : List Post) (p : Post)
    (hp : ∀ t ∈ tagsOf p, t = reservedTag) :
    buildTagMap (pre ++ p :: post) = buildTagMap (pre ++ post) := by
  unfold buildTagMap
  rw [List.foldl_append, List.foldl_append, List.foldl_cons,
    foldl_bucketStep_of_reserved p _ _ hp]

theorem tagList_skip (pre post : List Post) (p : Post)
    (hp : ∀ t ∈ tagsOf p, t = reservedTag) :
    tagList (pre ++ p :: post) = tagList (pre ++ post) := by
  unfold tagList
  simp only [List.foldl_append, List.foldl_cons, foldl_setAdd_of_reserved _ _ hp]

theorem buildTagMap_of_all_reserved (posts : List Post)
    (h : ∀ q ∈ posts, ∀ t ∈ tagsOf q, t = reservedTag) : buildTagMap posts = [] := by
  induction posts with
  | nil => rfl
  | cons q rest ih =>
    have h1 := buildTagMap_skip [] rest q (h q (List.mem_cons_self q rest))
    simp only [List.nil_append] at h1
    rw [h1]
    exact ih (fun r hr => h r (List.mem_cons_of_mem q hr))

/-! ## The claims on the tag filter and on posts without tags -/

/-- C21: for every list of posts and every non-empty tag `t`, `filterByTag(posts, t)` is the
sub-sequence of the posts whose tag list holds `t`, in their order; for the four articles of the
test it has the length 2 for `javascript`, 2 for `tutorial` and 0 for `rust`. -/
theorem filterByTag_eq_filter (posts : List Post) (t : JsString) (hne : t ≠ []) :
    filterByTag posts t = posts.filter (fun p => decide (t ∈ tagsOf p))
    ∧ filterByTag posts t <+ posts
    ∧ (∀ p, p ∈ filterByTag posts t ↔ (p ∈ posts ∧ t ∈ tagsOf p))
    ∧ (filterByTag mockArticles (js "javascript")).length = 2
    ∧ (filterByTag mockArticles (js "tutorial")).length = 2
    ∧ (filterByTag mockArticles (js "rust")).length = 0 := by
  have h : filterByTag posts t = posts.filter (fun p => decide (t ∈ tagsOf p)) := by
    unfold filterByTag
    rw [if_neg hne]
  refine ⟨h, ?_, ?_, by decide, by decide, by decide⟩
  · rw [h]
    exact List.filter_sublist posts
  · intro p
    rw [h]
    simp

/-- Witness of C21: the three articles of the example and the tag `js`. -/
theorem filterByTag_eq_filter_witness :
    js "js" ≠ []
    ∧ filterByTag examplePosts (js "js")
        = examplePosts.filter (fun p => decide (js "js" ∈ tagsOf p))
    ∧ filterByTag examplePosts (js "js") <+ examplePosts
    ∧ (∀ p, p ∈ filterByTag examplePosts (js "js") ↔ (p ∈ examplePosts ∧ js "js" ∈ tagsOf p))
    ∧ (filterByTag mockArticles (js "javascript")).length = 2
    ∧ (filterByTag mockArticles (js "tutorial")).length = 2
    ∧ (filterByTag mockArticles (js "rust")).length = 0 :=
  ⟨by decide, filterByTag_eq_filter examplePosts (js "js") (by decide)⟩

/-- C22: a post that has no tag, or no tag but the reserved tag `post`, stands in no bucket of
`postsByTag` and adds nothing to `tagList`: with and without the post the two collections are
the same.  When every post is of this kind, `postsByTag` and `tagList` are empty. -/
theorem untagged_post_adds_nothing (pre post : List Post) (p : Post)
    (hp : ∀ t ∈ tagsOf p, t = reservedTag) :
    (∀ t b, mapGet (postsByTag (pre ++ p :: post)) t = some b → p ∉ b)
    ∧ postsByTag (pre ++ p :: post) = postsByTag (pre ++ post)
    ∧ tagList (pre ++ p :: post) = tagList (pre ++ post)
    ∧ (∀ posts : List Post, (∀ q ∈ posts, ∀ t ∈ tagsOf q, t = reservedTag) →
        postsByTag posts = [] ∧ tagList posts = []) := by
  refine ⟨?_, ?_, tagList_skip pre post p hp, ?_⟩
  · intro t b hb hmem
    obtain ⟨hkey, hsort⟩ := mapGet_postsByTag _ t b hb
    have hres : t ≠ reservedTag := ((mem_mapKeys_postsByTag _ t).mp hkey).1
    rw [hsort] at hmem
    have htag : t ∈ tagsOf p :=
      ((mem_pushedFor _ t p).mp ((sortByDate_perm _).mem_iff.mp hmem)).2
    exact hres (hp t htag)
  · unfold postsByTag
    rw [buildTagMap_skip pre post p hp]
  · intro posts hall
    have hb : buildTagMap posts = [] := buildTagMap_of_all_reserved posts hall
    have hp2 : postsByTag posts = [] := by
      unfold postsByTag
      rw [hb]
      rfl
    refine ⟨hp2, ?_⟩
    have hk := mapKeys_postsByTag posts
    rw [hp2] at hk
    unfold tagList
    rw [← hk]
    rfl

/-- Witness of C22: a post tagged only `post` between two tagged posts. -/
theorem untagged_post_adds_nothing_witness :
    (∀ t ∈ tagsOf (taggedPost "p.md" ["post"]), t = reservedTag)
    ∧ (∀ t b, mapGet (postsByTag ([taggedPost "a.md" ["js"]]
          ++ taggedPost "p.md" ["post"] :: [taggedPost "b.md" ["css"]])) t = some b →
        taggedPost "p.md" ["post"] ∉ b)
    ∧ postsByTag ([taggedPost "a.md" ["js"]]
          ++ taggedPost "p.md" ["post"] :: [taggedPost "b.md" ["css"]])
        = postsByTag ([taggedPost "a.md" ["js"]] ++ [taggedPost "b.md" ["css"]])
    ∧ tagList ([taggedPost "a.md" ["js"]]
          ++ taggedPost "p.md" ["post"] :: [taggedPost "b.md" ["css"]])
        = tagList ([taggedPost "a.md" ["js"]] ++ [taggedPost "b.md" ["css"]])
    ∧ (∀ posts : List Post, (∀ q ∈ posts, ∀ t ∈ tagsOf q, t = reservedTag) →
        postsByTag posts = [] ∧ tagList posts = []) :=
  ⟨by decide,
    untagged_post_adds_nothing [taggedPost "a.md" ["js"]] [taggedPost "b.md" ["css"]]
      (taggedPost "p.md" ["post"]) (by decide)⟩

/-! ## The two estimates side by side -/

theorem tokenCountFrom_true_false (s : JsString) :
    tokenCountFrom false s ≤ tokenCountFrom true s
    ∧ tokenCountFrom true s ≤ tokenCountFrom false s + 1 := by
  cases s with
  | nil => simp [tokenCountFrom]
  | cons c rest =>
    by_cases hc : isSpace c = true
    · simp [tokenCountFrom, hc]
    · simp [tokenCountFrom, hc]
      omega

theorem splitWs_length_bounds (s : JsString) :
    tokenCountFrom false s + 1 ≤ (splitWs s).length
    ∧ (splitWs s).length ≤ tokenCountFrom false s + 2 := by
  induction s with
  | nil => simp [splitWs, tokenCountFrom]
  | cons c rest ih =>
    rw [splitWs]
    by_cases hc : isSpace c = true
    · by_cases hs : startsWithSpace rest = true
      · have h := tokenCountFrom_of_startsWithSpace false rest hs
        simp only [hc, hs, if_true, tokenCountFrom, Bool.not_true, Bool.and_false,
          Bool.false_eq_true, if_false, Nat.zero_add, ← h]
        exact ih
      · cases rest with
        | nil => simp [hc, startsWithSpace, splitWs, tokenCountFrom]
        | cons d r =>
          have hd : isSpace d = false := by
            simpa [startsWithSpace] using hs
          have ht : tokenCountFrom true (d :: r) = tokenCountFrom false (d :: r) + 1 := by
            simp [tokenCountFrom, hd]
            omega
          have hcr : tokenCountFrom false (c :: d :: r) = tokenCountFrom true (d :: r) := by
            simp [tokenCountFrom, hc]
          rw [if_pos hc, if_neg hs, hcr, ht, List.length_cons]
          omega
    · cases hsp : splitWs rest with
      | nil => exact absurd hsp (splitWs_ne_nil rest)
      | cons piece pieces =>
        rw [hsp] at ih
        simp only [List.length_cons] at ih
        simp [hc, tokenCountFrom]
        omega

/-- The pieces of a split are the words and at most two empty pieces, one at each end. -/
theorem splitWs_length_tokenCount (s : JsString) :
    tokenCount s ≤ (splitWs s).length ∧ (splitWs s).length ≤ tokenCount s + 2 := by
  have h1 := tokenCountFrom_true_false s
  have h2 := splitWs_length_bounds s
  unfold tokenCount
  omega

theorem not_mem_removeAll (re : JsString → Option Nat) (s : JsString) (u : Nat)
    (h : u ∉ s) : u ∉ removeAll re s :=
  fun hm => h ((removeAllGo_sublist re 0 s).subset hm)

/-- What the two estimates count in a body without a backtick. -/
theorem counts_of_no_tick (body : JsString) (h : TICK ∉ body) :
    textWords body = tokenCount (removeAll tagRe body)
    ∧ codeWords body = 0
    ∧ filterTextWords body = (splitWs (removeAll tagRe body)).length
    ∧ filterCodeWords body = 1 := by
  have ht : TICK ∉ removeAll tagRe body := not_mem_removeAll tagRe body TICK h
  have h2 : removeAll fenceRe (removeAll tagRe body) = removeAll tagRe body :=
    removeAllGo_of_no_match _ _ (fun t hs => fenceRe_of_not_mem _ t ht hs)
  have h3 : removeAll inlineRe (removeAll tagRe body) = removeAll tagRe body :=
    removeAllGo_of_no_match _ _ (fun t hs => inlineRe_of_not_mem _ t ht hs)
  have h4 : matchAll fenceRe body = [] :=
    matchAllGo_of_no_match _ _ (fun t hs => fenceRe_of_not_mem body t h hs)
  have h5 : matchAll inlineRe body = [] :=
    matchAllGo_of_no_match _ _ (fun t hs => inlineRe_of_not_mem body t h hs)
  refine ⟨?_, ?_, ?_, ?_⟩
  · simp only [textWords, h2, h3, wordCount_eq_tokenCount]
  · simp only [codeWords, h4, h5]
    decide
  · simp only [filterTextWords, h2]
  · simp only [filterCodeWords, h4]
    decide

/-- C23: the filter `readingTime` and the reference `calculateReadingTime` are not equivalent.
On 200 prose words joined by single spaces the reference counts no code word and returns 1,
the filter counts the one empty piece of the empty code text as a code word and returns 2; on
the body of a space and a word the filter counts the empty first piece as a text word. -/
theorem readingTime_ne_calculateReadingTime :
    (codeWords (joinSpace (List.replicate 200 (js "word"))) = 0
      ∧ filterCodeWords (joinSpace (List.replicate 200 (js "word"))) = 1
      ∧ calculateReadingTime (joinSpace (List.replicate 200 (js "word"))) = 1
      ∧ readingTime (joinSpace (List.replicate 200 (js "word"))) = 2)
    ∧ (textWords (js " word") = 1 ∧ filterTextWords (js " word") = 2)
    ∧ ∃ body, readingTime body ≠ calculateReadingTime body := by
  have hw : js "word" ≠ [] ∧ ∀ u ∈ js "word", isSpace u = false ∧ u ≠ TICK ∧ u ≠ LESS := by
    decide
  have hm : ∀ p ∈ List.replicate 199 ([SPACE], js "word"),
      (p.1 ≠ [] ∧ ∀ u ∈ p.1, isSpace u = true)
        ∧ (p.2 ≠ [] ∧ ∀ u ∈ p.2, isSpace u = false ∧ u ≠ TICK ∧ u ≠ LESS) := by
    intro p hp
    rw [List.eq_of_mem_replicate hp]
    decide
  have h1 := calculateReadingTime_proseBody [] (js "word")
    (List.replicate 199 ([SPACE], js "word")) [] (by simp) hw hm (by simp)
  have h2 := readingTime_proseBody (js "word") (List.replicate 199 ([SPACE], js "word")) hw hm
  rw [← joinSpace_replicate_succ, List.length_replicate] at h1 h2
  have hc : codeWords (joinSpace (List.replicate 200 (js "word"))) = 0 := by
    refine (counts_of_no_tick _ ?_).2.1
    rw [joinSpace_replicate_succ]
    exact not_mem_proseBody TICK (by decide) [] (js "word") _ [] (by simp) (by decide)
      (fun p hp => by rw [List.eq_of_mem_replicate hp]; decide) (by simp)
  have h1' : calculateReadingTime (joinSpace (List.replicate 200 (js "word"))) = 1 := by
    rw [h1]; decide
  have h2' : readingTime (joinSpace (List.replicate 200 (js "word"))) = 2 := by
    rw [h2.2.2]
  refine ⟨⟨hc, h2.2.1, h1', h2'⟩, by decide, joinSpace (List.replicate 200 (js "word")), ?_⟩
  rw [h1', h2']
  decide

/-- C26: for every body without a backtick the two estimates differ by at most one minute:
`calculateReadingTime(body) <= readingTime(body) <= calculateReadingTime(body) + 1`. -/
theorem readingTime_near_calculateReadingTime (body : JsString) (h : TICK ∉ body) :
    calculateReadingTime body ≤ readingTime body
    ∧ readingTime body ≤ calculateReadingTime body + 1 := by
  obtain ⟨h1, h2, h3, h4⟩ := counts_of_no_tick body h
  obtain ⟨h5, h6⟩ := splitWs_length_tokenCount (removeAll tagRe body)
  rw [calculateReadingTime_eq, readingTime_eq, h1, h2, h3, h4]
  generalize tokenCount (removeAll tagRe body) = T at h5 h6 ⊢
  generalize (splitWs (removeAll tagRe body)).length = P at h5 h6 ⊢
  rcases Nat.le_total 1 ((T + 2 * 0 + 199) / 200) with hm | hm
  · rw [Nat.max_eq_right hm]
    omega
  · rw [Nat.max_eq_left hm]
    omega

/-- Witness of C26: a body with white space at both ends and a tag in it. -/
theorem readingTime_near_calculateReadingTime_witness :
    TICK ∉ js " some <b>bold</b> text "
    ∧ calculateReadingTime (js " some <b>bold</b> text ")
        ≤ readingTime (js " some <b>bold</b> text ")
    ∧ readingTime (js " some <b>bold</b> text ")
        ≤ calculateReadingTime (js " some <b>bold</b> text ") + 1 :=
  ⟨by decide, readingTime_near_calculateReadingTime (js " some <b>bold</b> text ") (by decide)⟩

/-! ## The checks of the article schema -/

theorem tagFormatTest_eq (s : JsString) :
    tagFormatTest s = (!s.isEmpty && s.all isTagUnit) := by
  unfold tagFormatTest
  simp only [drop_length_takeWhile]
  by_cases hall : ∀ u ∈ s, isTagUnit u = true
  · have h1 : s.takeWhile isTagUnit = s := List.takeWhile_eq_self_iff.mpr hall
    have h2 : s.dropWhile isTagUnit = [] := List.dropWhile_eq_nil_iff.mpr hall
    have h3 : s.all isTagUnit = true := List.all_eq_true.mpr hall
    rw [h1, h2, h3]
    cases s <;> simp
  · have h2 : s.dropWhile isTagUnit ≠ [] := fun e => hall (List.dropWhile_eq_nil_iff.mp e)
    have h3 : s.all isTagUnit = false := by
      cases hb : s.all isTagUnit with
      | false => rfl
      | true => exact absurd (List.all_eq_true.mp hb) hall
    have h4 : (s.dropWhile isTagUnit).isEmpty = false := by
      cases hd : s.dropWhile isTagUnit with
      | nil => exact absurd hd h2
      | cons a l => rfl
    rw [h3, h4]
    simp

theorem tagErrors_eq (tag : TagValue) :
    tagErrors tag = if isCanonicalTag tag then [] else [SchemaError.tagFormat tag.shown] := by
  cases tag with
  | str s =>
    simp only [tagErrors, isCanonicalTag, TagValue.shown, tagFormatTest_eq]
    cases (!s.isEmpty && s.all isTagUnit) <;> simp
  | nonString shown => simp [tagErrors, isCanonicalTag, TagValue.shown]

theorem flatten_tagErrors (tags : List TagValue) :
    (tags.map tagErrors).flatten
      = (tags.filter (fun tag => !isCanonicalTag tag)).map
          (fun tag => SchemaError.tagFormat tag.shown) := by
  induction tags with
  | nil => rfl
  | cons tag rest ih =>
    rw [List.map_cons, List.flatten_cons, ih, tagErrors_eq]
    cases h : isCanonicalTag tag <;> simp [h]

/-- C24: for every tag list, `validateArticleSchema` reports a tag-format error for a tag
exactly when the tag is not a string of one or more code units out of `a-z`, `0-9` and `-`, one
error for each such tag in the order of the list, and it reports the tag-count error exactly
when the list has no tag or more than 10 tags.  Upper-case letters, spaces, underscores, the
empty string and values that are no strings are rejected. -/
theorem validateTags_exact (tags : List TagValue) :
    (SchemaError.tagCount ∈ validateTags (some tags) ↔ (tags.length = 0 ∨ 10 < tags.length))
    ∧ (∀ tag, tagErrors tag
        = if isCanonicalTag tag then [] else [SchemaError.tagFormat tag.shown])
    ∧ (validateTags (some tags)).filter (fun e => decide (e ≠ SchemaError.tagCount))
        = (tags.filter (fun tag => !isCanonicalTag tag)).map
            (fun tag => SchemaError.tagFormat tag.shown)
    ∧ (tagErrors (TagValue.str (js "web-dev2")) = []
      ∧ tagErrors (TagValue.str (js "JavaScript")) = [SchemaError.tagFormat (js "JavaScript")]
      ∧ tagErrors (TagValue.str (js "web dev")) = [SchemaError.tagFormat (js "web dev")]
      ∧ tagErrors (TagValue.str (js "web_dev")) = [SchemaError.tagFormat (js "web_dev")]
      ∧ tagErrors (TagValue.str (js "")) = [SchemaError.tagFormat (js "")]
      ∧ tagErrors (TagValue.nonString (js "42")) = [SchemaError.tagFormat (js "42")]) := by
  have hformat : ∀ e ∈ (tags.filter (fun tag => !isCanonicalTag tag)).map
      (fun tag => SchemaError.tagFormat tag.shown), e ≠ SchemaError.tagCount := by
    intro e he
    obtain ⟨tag, _, rfl⟩ := List.mem_map.mp he
    simp
  refine ⟨?_, tagErrors_eq, ?_, by decide⟩
  · simp only [validateTags, flatten_tagErrors, List.mem_append]
    constructor
    · rintro (h | h)
      · by_contra hn
        rw [if_neg hn] at h
        simp at h
      · exact absurd rfl (hformat _ h)
    · intro h
      rw [if_pos h]
      simp
  · simp only [validateTags, flatten_tagErrors, List.filter_append]
    have h1 : (if tags.length = 0 ∨ tags.length > 10 then [SchemaError.tagCount] else []).filter
        (fun e => decide (e ≠ SchemaError.tagCount)) = [] := by
      split <;> simp
    rw [h1, List.nil_append, List.filter_eq_self]
    intro e he
    simpa using hformat e he

set_option maxRecDepth 1000000 in
/-- C25 fails on the code: a content of 200 letters `a`, which is one word, and a content of 50
words of 250 letters in all draw no error `Content must be at least 200 words`; the check
compares the number of code units of the trimmed content with 200, not its number of words. -/
theorem validateContent_counts_units :
    (validateContent (List.replicate 200 97) = []
      ∧ tokenCount (trim (List.replicate 200 97)) = 1)
    ∧ (validateContent (joinSpace (List.replicate 50 (js "words"))) = []
      ∧ tokenCount (trim (joinSpace (List.replicate 50 (js "words")))) = 50) := by
  decide

/-! ## Sorting and filtering -/

theorem orderedInsert_of_forall_le (a : Post) (l : List Post)
    (h : ∀ y ∈ l, y.date ≤ a.date) :
    List.orderedInsert (fun a b : Post => b.date ≤ a.date) a l = a :: l := by
  cases l with
  | nil => rfl
  | cons b t => exact List.orderedInsert_of_le _ t (h b (List.mem_cons_self b t))

theorem filter_orderedInsert (p : Post → Bool) (a : Post) (s : List Post)
    (hs : s.Pairwise (fun x y => y.date ≤ x.date)) :
    (List.orderedInsert (fun a b : Post => b.date ≤ a.date) a s).filter p
      = if p a = true then List.orderedInsert (fun a b : Post => b.date ≤ a.date) a (s.filter p)
        else s.filter p := by
  induction s with
  | nil => by_cases hpa : p a = true <;> simp [hpa]
  | cons b t ih =>
    obtain ⟨hb, ht⟩ := List.pairwise_cons.mp hs
    by_cases hab : b.date ≤ a.date
    · have hall : ∀ y ∈ (b :: t).filter p, y.date ≤ a.date := by
        intro y hy
        rcases List.mem_cons.mp (List.mem_filter.mp hy).1 with e | hyt
        · rw [e]; exact hab
        · exact le_trans (hb y hyt) hab
      rw [List.orderedInsert_of_le _ t hab]
      by_cases hpa : p a = true
      · rw [if_pos hpa, orderedInsert_of_forall_le a _ hall, List.filter_cons_of_pos hpa]
      · rw [if_neg hpa, List.filter_cons_of_neg hpa]
    · have hins : List.orderedInsert (fun a b : Post => b.date ≤ a.date) a (b :: t)
          = b :: List.orderedInsert (fun a b : Post => b.date ≤ a.date) a t := by
        simp [List.orderedInsert, hab]
      rw [hins]
      by_cases hpb : p b = true
      · rw [List.filter_cons_of_pos hpb, List.filter_cons_of_pos hpb, ih ht]
        by_cases hpa : p a = true
        · rw [if_pos hpa, if_pos hpa]
          simp [List.orderedInsert, hab]
        · rw [if_neg hpa, if_neg hpa]
      · rw [List.filter_cons_of_neg hpb, List.filter_cons_of_neg hpb, ih ht]

/-- Filtering commutes with the stable sort by date. -/
theorem sortByDate_filter (p : Post → Bool) (l : List Post) :
    sortByDate (l.filter p) = (sortByDate l).filter p := by
  induction l with
  | nil => rfl
  | cons a t ih =>
    have hs : (sortByDate t).Pairwise (fun x y => y.date ≤ x.date) := sortByDate_sorted t
    have hcons : sortByDate (a :: t)
        = List.orderedInsert (fun a b : Post => b.date ≤ a.date) a (sortByDate t) := rfl
    rw [hcons, filter_orderedInsert p a _ hs]
    by_cases hpa : p a = true
    · rw [if_pos hpa, List.filter_cons_of_pos hpa, ← ih]
      rfl
    · rw [if_neg hpa, List.filter_cons_of_neg hpa, ih]

/-- C27: for every list of collection items (their dates are time stamps) the collection
`posts` is the items that are no drafts, sorted stably by falling date; `recentPosts` is the
prefix of `posts` of length `min(5, its length)`; `featuredPosts` is the prefix of length at
most 3 of the featured members of `posts`; so neither of the two holds a draft. -/
theorem collections_exact (collection : List Post) :
    ((postsCollection collection).Perm (collection.filter (fun item => !item.draft))
      ∧ (postsCollection collection).Pairwise (fun p q => q.date ≤ p.date)
      ∧ ∀ d : Int, (postsCollection collection).filter (fun p => decide (p.date = d))
          = (collection.filter (fun item => !item.draft)).filter (fun p => decide (p.date = d)))
    ∧ (recentPosts collection
          = (postsCollection collection).take (min 5 (postsCollection collection).length)
      ∧ recentPosts collection <+: postsCollection collection
      ∧ (recentPosts collection).length = min 5 (postsCollection collection).length)
    ∧ (featuredPosts collection
          = ((postsCollection collection).filter (fun item => item.featured)).take 3
      ∧ (featuredPosts collection).length ≤ 3)
    ∧ (∀ p ∈ recentPosts collection, p.draft = false)
    ∧ (∀ p ∈ featuredPosts collection, p.draft = false) := by
  have hdraft : ∀ p ∈ postsCollection collection, p.draft = false := by
    intro p hp
    have := (sortByDate_perm _).mem_iff.mp hp
    simpa using (List.mem_filter.mp this).2
  have hfeat : featuredPosts collection
      = ((postsCollection collection).filter (fun item => item.featured)).take 3 := by
    unfold featuredPosts postsCollection
    rw [← sortByDate_filter, List.filter_filter]
  refine ⟨⟨sortByDate_perm _, sortByDate_sorted _, fun d => sortByDate_filter_date _ d⟩,
    ⟨?_, List.take_prefix 5 _, ?_⟩, ⟨hfeat, ?_⟩, ?_, ?_⟩
  · unfold recentPosts postsCollection
    rw [List.take_eq_take]
    simp
  · unfold recentPosts postsCollection
    rw [List.length_take]
  · rw [hfeat, List.length_take]
    exact Nat.min_le_left _ _
  · intro p hp
    exact hdraft p ((List.take_subset 5 _) hp)
  · intro p hp
    rw [hfeat] at hp
    exact hdraft p (List.mem_of_mem_filter ((List.take_subset 3 _) hp))

/-! ## Escaping -/

theorem replaceAllGo_special_cons (c : Nat) (rest : JsString) :
    replaceAllGo specialRe escapeMap 0 (c :: rest)
      = (if isSpecial c = true then escapeMap [c] else [c])
        ++ replaceAllGo specialRe escapeMap 0 rest := by
  by_cases h : isSpecial c = true
  · simp [replaceAllGo, specialRe, h]
  · simp [replaceAllGo, specialRe, h]

theorem isSpecial_cases (c : Nat) (h : isSpecial c = true) :
    c = AMPERSAND ∨ c = LESS ∨ c = GREATER ∨ c = QUOTE ∨ c = APOSTROPHE := by
  simpa [isSpecial, or_assoc] using h

theorem escapeMap_mem_entities (c : Nat) (h : isSpecial c = true) :
    escapeMap [c] ∈ entities := by
  rcases isSpecial_cases c h with e | e | e | e | e <;> subst e <;> decide

theorem suffix_append_cases (e out t : JsString) (h : t <:+ e ++ out) :
    t <:+ out ∨ ∃ e', e' ≠ [] ∧ e' <:+ e ∧ t = e' ++ out := by
  induction e with
  | nil => exact Or.inl (by simpa using h)
  | cons a e ih =>
    rw [List.cons_append, List.suffix_cons_iff] at h
    rcases h with h | h
    · exact Or.inr ⟨a :: e, by simp, List.suffix_refl _, h⟩
    · rcases ih h with h1 | ⟨e', hne, hs, ht⟩
      · exact Or.inl h1
      · exact Or.inr ⟨e', hne, hs.trans (List.suffix_cons a e), ht⟩

theorem entity_tail_with_ampersand :
    ∀ e ∈ entities, ∀ e' ∈ e.tails, e'.head? = some AMPERSAND → e' = e := by
  decide

theorem entity_units_harmless :
    ∀ e ∈ entities, ∀ u ∈ e, u ≠ LESS ∧ u ≠ GREATER ∧ u ≠ QUOTE ∧ u ≠ APOSTROPHE := by
  decide

/-- C28: for every string the output of the filter `escape` holds none of `<`, `>`, the double
quote and the apostrophe; every `&` in the output begins one of the entities `&amp;`, `&lt;`,
`&gt;`, `&quot;`, `&#39;`; a string without any of the five special code units is returned as
it is; the empty string and a missing input give the empty string. -/
theorem escape_safe (s : JsString) :
    (∀ u ∈ escape (some s), u ≠ LESS ∧ u ≠ GREATER ∧ u ≠ QUOTE ∧ u ≠ APOSTROPHE)
    ∧ (∀ t, t <:+ escape (some s) → t.head? = some AMPERSAND → ∃ e ∈ entities, e <+: t)
    ∧ ((∀ u ∈ s, isSpecial u = false) → escape (some s) = s)
    ∧ escape (some []) = [] ∧ escape none = [] := by
  refine ⟨?_, ?_, ?_, rfl, rfl⟩
  · induction s with
    | nil => intro u hu; simp [escape, replaceAllGo] at hu
    | cons c rest ih =>
      intro u hu
      simp only [escape, Option.getD_some] at hu ih
      rw [replaceAllGo_special_cons, List.mem_append] at hu
      rcases hu with hu | hu
      · by_cases hc : isSpecial c = true
        · rw [if_pos hc] at hu
          exact entity_units_harmless _ (escapeMap_mem_entities c hc) u hu
        · rw [if_neg hc] at hu
          have hu2 : u = c := by simpa using hu
          subst hu2
          simp only [isSpecial, Bool.or_eq_true, beq_iff_eq, not_or] at hc
          exact ⟨hc.1.1.1.2, hc.1.1.2, hc.1.2, hc.2⟩
      · exact ih u hu
  · induction s with
    | nil =>
      intro t ht hhead
      have : t = [] := by simpa [escape, replaceAllGo] using ht
      simp [this] at hhead
    | cons c rest ih =>
      intro t ht hhead
      simp only [escape, Option.getD_some] at ht ih
      rw [replaceAllGo_special_cons] at ht
      rcases suffix_append_cases _ _ t ht with h1 | ⟨e', hne, hs, hte⟩
      · exact ih t h1 hhead
      · have hh : e'.head? = some AMPERSAND := by
          cases e' with
          | nil => exact absurd rfl hne
          | cons a l => simpa [hte] using hhead
        by_cases hc : isSpecial c = true
        · rw [if_pos hc] at hs
          have hmem := escapeMap_mem_entities c hc
          have he : e' = escapeMap [c] :=
            entity_tail_with_ampersand _ hmem e' ((List.mem_tails _ _).mpr hs) hh
          exact ⟨escapeMap [c], hmem, by rw [hte, he]; exact List.prefix_append _ _⟩
        · rw [if_neg hc] at hs
          have he : e' = [c] := by
            rcases List.suffix_cons_iff.mp hs with h | h
            · exact h
            · exact absurd (List.suffix_nil.mp h) hne
          rw [he] at hh
          have hc2 : c = AMPERSAND := by simpa using hh
          exact absurd (by rw [hc2]; decide) hc
  · intro hs
    induction s with
    | nil => rfl
    | cons c rest ih =>
      have hc : ¬ isSpecial c = true := by
        simp [hs c (List.mem_cons_self c rest)]
      have hr := ih (fun u hu => hs u (List.mem_cons_of_mem c hu))
      simp only [escape, Option.getD_some] at hr ⊢
      rw [replaceAllGo_special_cons, if_neg hc, hr]
      rfl

/-! ## Excerpts -/

theorem lastIndexOf_spec (s : JsString) (u : Nat) :
    (lastIndexOf s u = -1 ∧ u ∉ s)
    ∨ ∃ i : Nat, lastIndexOf s u = (i : Int) ∧ s[i]? = some u
        ∧ ∀ j, i < j → s[j]? ≠ some u := by
  induction s with
  | nil => exact Or.inl ⟨rfl, by simp⟩
  | cons c rest ih =>
    rcases ih with ⟨h1, h2⟩ | ⟨i, h1, h2, h3⟩
    · by_cases hc : c = u
      · refine Or.inr ⟨0, ?_, ?_, ?_⟩
        · simp [lastIndexOf, h1, hc]
        · simp [hc]
        · intro j hj hget
          obtain ⟨k, rfl⟩ : ∃ k, j = k + 1 := ⟨j - 1, by omega⟩
          rw [List.getElem?_cons_succ] at hget
          exact h2 (List.mem_iff_getElem?.mpr ⟨k, hget⟩)
      · refine Or.inl ⟨?_, ?_⟩
        · simp [lastIndexOf, h1, hc]
        · intro hm
          rcases List.mem_cons.mp hm with e | hm
          · exact hc e.symm
          · exact h2 hm
    · refine Or.inr ⟨i + 1, ?_, ?_, ?_⟩
      · have h0 : (0 : Int) ≤ (i : Int) := Int.natCast_nonneg i
        simp [lastIndexOf, h1, h0]
      · rw [List.getElem?_cons_succ]
        exact h2
      · intro j hj hget
        obtain ⟨k, rfl⟩ : ∃ k, j = k + 1 := ⟨j - 1, by omega⟩
        rw [List.getElem?_cons_succ] at hget
        exact h3 k (by omega) hget

theorem excerpt_of_short (content : JsString) (L : Nat)
    (h : (removeAll tagRe content).length ≤ L) :
    excerpt content L = removeAll tagRe content := by
  unfold excerpt
  by_cases hc : content = []
  · subst hc
    rfl
  · rw [if_neg hc]
    simp only [h, if_true]

/-- What `excerpt` returns for a text that is longer than the limit. -/
theorem excerpt_of_long (content : JsString) (L : Nat)
    (h : L < (removeAll tagRe content).length) :
    ∃ p, excerpt content L = p ++ js "..."
      ∧ p <+: removeAll tagRe content ∧ p.length ≤ L
      ∧ ((∃ i, 0 < i ∧ i < L ∧ (removeAll tagRe content)[i]? = some SPACE) →
          ∃ i, 0 < i ∧ i < L ∧ (removeAll tagRe content)[i]? = some SPACE
            ∧ (∀ j, i < j → j < L → (removeAll tagRe content)[j]? ≠ some SPACE)
            ∧ p = (removeAll tagRe content).take i)
      ∧ ((¬ ∃ i, 0 < i ∧ i < L ∧ (removeAll tagRe content)[i]? = some SPACE) →
          p = (removeAll tagRe content).take L) := by
  have hc : content ≠ [] := by
    intro e
    subst e
    simp [removeAll, removeAllGo] at h
  have hnot : ¬ (removeAll tagRe content).length ≤ L := by omega
  have hex : excerpt content L
      = if lastIndexOf ((removeAll tagRe content).take L) SPACE > 0
        then ((removeAll tagRe content).take L).take
            (lastIndexOf ((removeAll tagRe content).take L) SPACE).toNat ++ js "..."
        else (removeAll tagRe content).take L ++ js "..." := by
    unfold excerpt
    rw [if_neg hc]
    simp only [hnot, if_false, substring0, Int.toNat_natCast]
  generalize removeAll tagRe content = text at h hex ⊢
  have hlen : (text.take L).length = L := by
    rw [List.length_take]
    omega
  rcases lastIndexOf_spec (text.take L) SPACE with ⟨h1, h2⟩ | ⟨i, h1, h2, h3⟩
  · refine ⟨text.take L, ?_, List.take_prefix L text, by omega, ?_, fun _ => rfl⟩
    · rw [hex, h1]
      simp
    · rintro ⟨i, _, hi, hget⟩
      rw [← List.getElem?_take_of_lt hi] at hget
      exact absurd (List.mem_iff_getElem?.mpr ⟨i, hget⟩) h2
  · have hiL : i < L := by
      obtain ⟨hlt, _⟩ := List.getElem?_eq_some.mp h2
      omega
    have hget : text[i]? = some SPACE := by
      rw [← List.getElem?_take_of_lt hiL]
      exact h2
    have hafter : ∀ j, i < j → j < L → text[j]? ≠ some SPACE := by
      intro j hij hjL hj
      rw [← List.getElem?_take_of_lt hjL] at hj
      exact h3 j hij hj
    by_cases hi0 : 0 < i
    · have hpos : lastIndexOf (text.take L) SPACE > 0 := by
        rw [h1]
        exact_mod_cast hi0
      have hp : (text.take L).take i = text.take i := by
        rw [List.take_take, Nat.min_eq_left (by omega)]
      refine ⟨text.take i, ?_, List.take_prefix i text, ?_, ?_, ?_⟩
      · rw [hex, if_pos hpos, h1, Int.toNat_natCast, hp]
      · rw [List.length_take]
        omega
      · intro _
        exact ⟨i, hi0, hiL, hget, hafter, rfl⟩
      · intro hn
        exact absurd ⟨i, hi0, hiL, hget⟩ hn
    · have hi : i = 0 := by omega
      subst hi
      have hnpos : ¬ lastIndexOf (text.take L) SPACE > 0 := by
        rw [h1]
        simp
      refine ⟨text.take L, ?_, List.take_prefix L text, by omega, ?_, fun _ => rfl⟩
      · rw [hex, if_neg hnpos]
      · rintro ⟨j, hj0, hjL, hj⟩
        exact absurd hj (hafter j hj0 hjL)

/-- C29: for every content and every limit `L`, with `text` the content without its markup
tags: when `text` has at most `L` code units the filter `excerpt` returns `text`; otherwise it
returns `p + '...'` for a prefix `p` of `text` of at most `L` code units, which ends before the
last space among the first `L` code units when that space is not at index 0, and is the first
`L` code units otherwise; so the result has never more than `L + 3` code units. -/
theorem excerpt_exact (content : JsString) (L : Nat) :
    ((removeAll tagRe content).length ≤ L → excerpt content L = removeAll tagRe content)
    ∧ (L < (removeAll tagRe content).length →
        ∃ p, excerpt content L = p ++ js "..."
          ∧ p <+: removeAll tagRe content ∧ p.length ≤ L
          ∧ ((∃ i, 0 < i ∧ i < L ∧ (removeAll tagRe content)[i]? = some SPACE) →
              ∃ i, 0 < i ∧ i < L ∧ (removeAll tagRe content)[i]? = some SPACE
                ∧ (∀ j, i < j → j < L → (removeAll tagRe content)[j]? ≠ some SPACE)
                ∧ p = (removeAll tagRe content).take i)
          ∧ ((¬ ∃ i, 0 < i ∧ i < L ∧ (removeAll tagRe content)[i]? = some SPACE) →
              p = (removeAll tagRe content).take L))
    ∧ (excerpt content L).length ≤ L + 3
    ∧ excerpt (js "hello <b>brave</b> new world") 13 = js "hello brave..." := by
  refine ⟨excerpt_of_short content L, excerpt_of_long content L, ?_, by decide⟩
  rcases Nat.lt_or_ge L (removeAll tagRe content).length with h | h
  · obtain ⟨p, hp, _, hlen, _⟩ := excerpt_of_long content L h
    rw [hp, List.length_append]
    have : (js "...").length = 3 := by decide
    omega
  · rw [excerpt_of_short content L h]
    omega

/-! ## Counting the words of a trimmed text -/

theorem tokenCountFrom_append_white (b : Bool) (core sp : JsString)
    (h : ∀ u ∈ sp, isSpace u = true) :
    tokenCountFrom b (core ++ sp) = tokenCountFrom b core := by
  induction core generalizing b with
  | nil => simpa [tokenCountFrom] using tokenCountFrom_white b sp h
  | cons c rest ih => simp [tokenCountFrom, ih]

theorem tokenCount_dropWhile (s : JsString) :
    tokenCount (s.dropWhile isSpace) = tokenCount s := by
  have h := tokenCountFrom_white_append (s.takeWhile isSpace) (s.dropWhile isSpace)
    (fun u hu => List.mem_takeWhile_imp hu)
  rw [List.takeWhile_append_dropWhile] at h
  exact h.symm

theorem eq_dropWhile_reverse_append (w : JsString) :
    w = (w.reverse.dropWhile isSpace).reverse ++ (w.reverse.takeWhile isSpace).reverse := by
  rw [← List.reverse_append, List.takeWhile_append_dropWhile, List.reverse_reverse]

theorem tokenCount_trim (s : JsString) : tokenCount (trim s) = tokenCount s := by
  have h1 := eq_dropWhile_reverse_append (s.dropWhile isSpace)
  have h2 := tokenCountFrom_append_white true
    ((s.dropWhile isSpace).reverse.dropWhile isSpace).reverse
    ((s.dropWhile isSpace).reverse.takeWhile isSpace).reverse
    (fun u hu => List.mem_takeWhile_imp (List.mem_reverse.mp hu))
  rw [← h1] at h2
  unfold trim
  exact h2.symm.trans (tokenCount_dropWhile s)

theorem trim_head_not_space (s : JsString) (x : Nat) (h : (trim s).head? = some x) :
    isSpace x = false := by
  have hne : ((s.dropWhile isSpace).reverse.dropWhile isSpace).reverse ≠ [] := by
    intro e
    unfold trim at h
    rw [e] at h
    simp at h
  have h1 := eq_dropWhile_reverse_append (s.dropWhile isSpace)
  have h2 : (s.dropWhile isSpace).head? = (trim s).head? := by
    conv_lhs => rw [h1]
    rw [List.head?_append_of_ne_nil _ hne]
    rfl
  have h3 := List.head?_dropWhile_not isSpace s
  rw [h2, h] at h3
  exact h3

theorem trim_last_not_space (s : JsString) (x : Nat) (h : (trim s).getLast? = some x) :
    isSpace x = false := by
  unfold trim at h
  rw [List.getLast?_reverse] at h
  have h3 := List.head?_dropWhile_not isSpace (s.dropWhile isSpace).reverse
  rw [h] at h3
  exact h3

theorem splitWs_length_of_last (u : JsString) (hne : u ≠ [])
    (hlast : ∀ x, u.getLast? = some x → isSpace x = false) :
    (splitWs u).length = tokenCountFrom false u + 1 := by
  induction u with
  | nil => exact absurd rfl hne
  | cons c rest ih =>
    cases rest with
    | nil =>
      have hc : isSpace c = false := hlast c rfl
      simp [splitWs, hc, tokenCountFrom]
    | cons d r =>
      have hr := ih (by simp) (fun x hx => hlast x (by rw [List.getLast?_cons_cons]; exact hx))
      rw [splitWs]
      by_cases hc : isSpace c = true
      · have hcr : tokenCountFrom false (c :: d :: r) = tokenCountFrom true (d :: r) := by
          simp [tokenCountFrom, hc]
        by_cases hd : isSpace d = true
        · have hs : startsWithSpace (d :: r) = true := by simpa [startsWithSpace] using hd
          rw [if_pos hc, if_pos hs, hr, hcr, tokenCountFrom_of_startsWithSpace false _ hs]
        · have hs : ¬ startsWithSpace (d :: r) = true := by simpa [startsWithSpace] using hd
          have ht : tokenCountFrom true (d :: r) = tokenCountFrom false (d :: r) + 1 := by
            simp [tokenCountFrom, hd]
            omega
          rw [if_pos hc, if_neg hs, hcr, ht, List.length_cons, hr]
      · have hcr : tokenCountFrom false (c :: d :: r) = tokenCountFrom false (d :: r) := by
          simp [tokenCountFrom, hc]
        rw [if_neg hc, hcr, ← hr]
        cases hsp : splitWs (d :: r) with
        | nil => exact absurd hsp (splitWs_ne_nil _)
        | cons piece pieces => simp

/-- The filter `wordcount` on a content that is not empty: the number of words of the text
without its tags, but 1 when that text has no word. -/
theorem wordcount_eq (content : JsString) (h : content ≠ []) :
    wordcount content = max 1 (tokenCount (removeAll tagRe content)) := by
  unfold wordcount
  rw [if_neg h]
  simp only
  rw [← tokenCount_trim (removeAll tagRe content)]
  cases hu : trim (removeAll tagRe content) with
  | nil => decide
  | cons c rest =>
    have hhead : isSpace c = false :=
      trim_head_not_space (removeAll tagRe content) c (by rw [hu]; rfl)
    have hlen := splitWs_length_of_last (c :: rest) (by simp)
      (fun x hx => trim_last_not_space (removeAll tagRe content) x (by rw [hu]; exact hx))
    have ht : tokenCount (c :: rest) = tokenCountFrom false (c :: rest) + 1 := by
      simp [tokenCount, tokenCountFrom, hhead]
      omega
    rw [hlen, ht]
    omega

/-- C30 fails on the code: for a content of three spaces and for the content `<p></p>`, whose
text without tags has no word, the filter `wordcount` returns 1, not 0; only the empty content
gives 0.  For every content that is not empty the filter returns the number of words of the
text without tags, but 1 when there is no word. -/
theorem wordcount_of_no_words :
    (wordcount (js "   ") = 1 ∧ tokenCount (removeAll tagRe (js "   ")) = 0)
    ∧ (wordcount (js "<p></p>") = 1 ∧ tokenCount (removeAll tagRe (js "<p></p>")) = 0)
    ∧ wordcount [] = 0
    ∧ ∀ content : JsString, content ≠ [] →
        wordcount content = max 1 (tokenCount (removeAll tagRe content)) :=
  ⟨by decide, by decide, by decide, wordcount_eq⟩

end TechBlog
